import Mathlib

/-!
Verification development for the imap-email-py repository.

This file gives a shallow embedding, in Lean 4, of the vector-index /
metadata consistency engine of the repository: the incremental indexer and
identity map of `embedding.py`, the hybrid search and keyword fallback of
`search.py`, the UIDVALIDITY (generation token) handling of
`imap_client.py` and `main.py`, and the load path for the persisted
index/mapping pair.  Python dictionaries are embedded as association lists
with dict semantics (insertion order, in-place overwrite), the FAISS index
is embedded by its size (`ntotal`) plus an explicit trace of the texts
sent to the embedding model, and SQLite tables are embedded as lists of
rows.  Theorems below settle the frozen claims about this code.
-/

namespace ImapEmail

/-- Association-list lookup with Python-dict semantics: returns the value of
the first (and, for a well-formed dict, only) entry whose key matches. -/
def alookBy {α β : Type} [DecidableEq α] : List (α × β) → α → Option β
  | [], _ => none
  | (k, v) :: t, k' => if k = k' then some v else alookBy t k'

/-- Python `k in d` on an embedded dict. -/
def containsKeyBy {α β : Type} [DecidableEq α] (m : List (α × β)) (k : α) : Bool :=
  (alookBy m k).isSome

/-- Python `d[k] = v` on an embedded dict: overwrite in place if the key is
present, otherwise append at the end (dicts preserve insertion order). -/
def mapInsert {α β : Type} [DecidableEq α] (m : List (α × β)) (k : α) (v : β) :
    List (α × β) :=
  if containsKeyBy m k then m.map (fun p => if p.1 = k then (k, v) else p)
  else m ++ [(k, v)]

/-- An email record as built by `imap_client._fetch_email_batch` and consumed
by `embedding.embed_emails` (the fields the indexer reads). The Python
record's `body` may be `bytes`; `_embed_batch` decodes it to `str`, so it is
embedded as a string here. -/
structure Email where
  uid : String
  subject : String
  sender : String
  body : String
  date : String
deriving DecidableEq

/-- State of `EmbeddingManager` (`embedding.py`): the FAISS index is
represented by its size `ntotal` (the only attribute the indexing and
mapping logic reads), `u2f` embeds the dict `uid_to_faiss_id`, `f2u` embeds
the dict `faiss_id_to_uid` (whose Python keys are `str(faiss_id)`; since
`str` is injective on naturals they are embedded as naturals).  `trace`
instruments the calls made to the embedding model: one entry per
`model.encode` invocation, holding the list of texts passed to it. -/
structure EmbState where
  ntotal : Nat
  u2f : List (String × Nat)
  f2u : List (Nat × String)
  trace : List (List String)
deriving DecidableEq

/-- The mapping-update loop of `_embed_batch` (embedding.py lines 135-139):
`for i, email in enumerate(batch): faiss_id = start_id + i;
uid_to_faiss_id[uid] = faiss_id; faiss_id_to_uid[str(faiss_id)] = uid`,
expressed with the running id `n` in place of `start_id + i`. -/
def addPairs (n : Nat) (u2f : List (String × Nat)) (f2u : List (Nat × String)) :
    List Email → List (String × Nat) × List (Nat × String)
  | [] => (u2f, f2u)
  | e :: es => addPairs (n + 1) (mapInsert u2f e.uid n) (mapInsert f2u n e.uid) es

/-- `EmbeddingManager._embed_batch` (embedding.py lines 108-139): extracts the
bodies of the batch, calls `model.encode` once on them (recorded in `trace`),
appends the embeddings to the FAISS index (`start_id = index.ntotal` is
captured before the append) and updates both mapping directions. -/
def embedBatch (st : EmbState) (batch : List Email) : EmbState :=
  let bodies := batch.map (fun e => e.body)
  let pairs := addPairs st.ntotal st.u2f st.f2u batch
  { ntotal := st.ntotal + batch.length
    u2f := pairs.1
    f2u := pairs.2
    trace := st.trace ++ [bodies] }

/-- The filter of `embed_emails` (embedding.py lines 89-92): keep the emails
whose uid is not already a key of `uid_to_faiss_id`. -/
def newOf (st : EmbState) (emails : List Email) : List Email :=
  emails.filter (fun e => !(containsKeyBy st.u2f e.uid))

/-- The batch split `new_emails[i:i+B] for i in range(0, len(new_emails), B)`
of embedding.py lines 101-102.  (Python raises for step 0; the codebase only
calls this with `Config.EMBEDDING_BATCH_SIZE = 64`.) -/
def chunksOf {α : Type} (B : Nat) (l : List α) : List (List α) :=
  match l with
  | [] => []
  | x :: xs =>
    if _hB : B = 0 then []
    else (x :: xs).take B :: chunksOf B ((x :: xs).drop B)
termination_by l.length
decreasing_by
  simp only [List.length_drop, List.length_cons]
  omega

/-- `EmbeddingManager.embed_emails` (embedding.py lines 82-106): early return
on an empty argument, filter out already-indexed uids, process the remainder
in batches of size `B`.  The second component is the number of emails
embedded by the call (the `len(new_emails)` the function reports). -/
def embedEmails (B : Nat) (st : EmbState) (emails : List Email) : EmbState × Nat :=
  if emails = [] then (st, 0)
  else
    let newEmails := newOf st emails
    if newEmails = [] then (st, 0)
    else ((chunksOf B newEmails).foldl embedBatch st, newEmails.length)

/-- `Config.EMBEDDING_BATCH_SIZE` (config.py line 91). -/
def EMBEDDING_BATCH_SIZE : Nat := 64

/-- A freshly created index/mapping pair (`_load_or_create_index`, new-index
branch): empty index, empty dicts, no embedding calls made. -/
def emptyEmb : EmbState := ⟨0, [], [], []⟩

/-- A sequence of `embed_emails` calls starting from a fresh manager. -/
def runCalls (B : Nat) (calls : List (List Email)) : EmbState :=
  calls.foldl (fun st c => (embedEmails B st c).1) emptyEmb

/-- Membership test of one character list as a contiguous prefix of another
(helper for the substring test below). -/
def startsWithL : List Char → List Char → Bool
  | [], _ => true
  | _ :: _, [] => false
  | a :: as, b :: bs => a = b && startsWithL as bs

/-- Contiguous-sublist test on character lists (helper for `strContains`). -/
def containsL (needle : List Char) : List Char → Bool
  | [] => needle.isEmpty
  | c :: t => startsWithL needle (c :: t) || containsL needle t

/-- Python `needle in hay` on strings, which is also the semantics of the
SQL `hay LIKE :p`/`%needle%` rows built by `keyword_fallback_search` for
keywords containing no LIKE wildcard characters. -/
def strContains (hay needle : String) : Bool :=
  containsL needle.data hay.data

/-- Fuel-indexed helper for `replaceAllL`; the fuel (at least the input
length) makes the recursion structural, one unit per consumed character. -/
def replaceAllAux (pat rep : List Char) : Nat → List Char → List Char
  | _, [] => []
  | 0, cs => cs
  | fuel + 1, c :: t =>
    if startsWithL pat (c :: t) then
      rep ++ replaceAllAux pat rep fuel ((c :: t).drop pat.length)
    else c :: replaceAllAux pat rep fuel t

/-- Python `s.replace(pat, rep)` / `re.sub` on a literal pattern: replace
every non-overlapping occurrence, scanning left to right. -/
def replaceAllL (pat rep cs : List Char) : List Char :=
  if pat.isEmpty then cs else replaceAllAux pat rep cs.length cs

/-- Fuel-indexed helper for `splitOnL`, one fuel unit per consumed
character. -/
def splitOnAux (sep : List Char) : Nat → List Char → List Char → List (List Char)
  | _, acc, [] => [acc.reverse]
  | 0, acc, cs => [acc.reverse ++ cs]
  | fuel + 1, acc, c :: t =>
    if startsWithL sep (c :: t) then
      acc.reverse :: splitOnAux sep fuel [] ((c :: t).drop sep.length)
    else splitOnAux sep fuel (c :: acc) t

/-- Python `s.split(sep)` for a nonempty literal separator (also the
semantics of `String.splitOn`). -/
def splitOnL (sep cs : List Char) : List (List Char) :=
  if sep.isEmpty then [cs] else splitOnAux sep cs.length [] cs

/-- Fuel-indexed helper for `splitWS`, one fuel unit per consumed
character. -/
def splitWSAux : Nat → List Char → List (List Char)
  | _, [] => []
  | 0, cs => [cs]
  | fuel + 1, cs =>
    match cs.dropWhile Char.isWhitespace with
    | [] => []
    | c :: t =>
      (c :: t).takeWhile (fun x => !x.isWhitespace) ::
        splitWSAux fuel ((c :: t).dropWhile (fun x => !x.isWhitespace))

/-- Python `s.split()`: split on runs of whitespace, dropping empty parts
(search.py lines 244 and 304). -/
def pySplit (s : String) : List String :=
  (splitWSAux s.data.length s.data).map String.mk

/-- Python `s.lower()` (and SQLite `LOWER`, which is ASCII-only like
`Char.toLower`). -/
def strLower (s : String) : String :=
  String.mk (s.data.map Char.toLower)

/-- Python `s.strip()`: drop leading and trailing whitespace. -/
def stripL (cs : List Char) : List Char :=
  ((cs.dropWhile Char.isWhitespace).reverse.dropWhile Char.isWhitespace).reverse

/-- A naive Python `datetime` value.  Comparison of such values is
field-lexicographic; it is embedded by the order-faithful key `dtKey`
below (faithful because every value built by the parsers here keeps each
field inside its calendar range). -/
structure PyDateTime where
  year : Nat
  month : Nat
  day : Nat
  hour : Nat
  minute : Nat
  second : Nat
deriving DecidableEq

/-- Order-embedding key for in-range `PyDateTime` values. -/
def dtKey (t : PyDateTime) : Nat :=
  ((((t.year * 13 + t.month) * 32 + t.day) * 24 + t.hour) * 60 + t.minute) * 60
    + t.second

/-- Python `a <= b` on naive datetimes. -/
def dtLe (a b : PyDateTime) : Bool :=
  dtKey a ≤ dtKey b

/-- Python `datetime.min` = 0001-01-01 00:00:00. -/
def pyDatetimeMin : PyDateTime := ⟨1, 1, 1, 0, 0, 0⟩

/-- Parse a nonempty all-digit character list as a natural number. -/
def parseNatAll (cs : List Char) : Option Nat :=
  if cs = [] then none
  else if cs.all Char.isDigit then
    some (cs.foldl (fun n c => n * 10 + (c.toNat - 48)) 0)
  else none

/-- Gregorian leap-year rule, as used by Python's `datetime` validation. -/
def isLeapYear (y : Nat) : Bool :=
  (y % 4 = 0 && !(y % 100 = 0)) || y % 400 = 0

/-- Number of days in a month, as validated by the `datetime` constructor. -/
def daysInMonth (y m : Nat) : Nat :=
  if m = 2 then (if isLeapYear y then 29 else 28)
  else if m = 4 || m = 6 || m = 9 || m = 11 then 30
  else 31

/-- The `datetime(y, m, d, hh, mi, ss)` constructor: validates every field
range and otherwise raises (embedded as `none`). -/
def mkPyDate (y m d hh mi ss : Nat) : Option PyDateTime :=
  if 1 ≤ y && y ≤ 9999 && 1 ≤ m && m ≤ 12 && 1 ≤ d && d ≤ daysInMonth y m
      && hh ≤ 23 && mi ≤ 59 && ss ≤ 59 then
    some ⟨y, m, d, hh, mi, ss⟩
  else none

/-- Python `datetime.strptime(s, "%Y-%m-%d")`: three dash-separated digit
groups (1-4 digits of year, 1-2 of month and day), validated as a date. -/
def parseYMD (s : String) : Option PyDateTime :=
  match splitOnL "-".data s.data with
  | [ys, ms, ds] =>
    if ys.length ≤ 4 && ms.length ≤ 2 && ds.length ≤ 2 then
      match parseNatAll ys, parseNatAll ms, parseNatAll ds with
      | some y, some m, some d => mkPyDate y m d 0 0 0
      | _, _, _ => none
    else none
  | _ => none

/-- Python `datetime.strptime(s, "%Y-%m-%d %H:%M:%S")`. -/
def parseFull (s : String) : Option PyDateTime :=
  match splitOnL " ".data s.data with
  | [datePart, timePart] =>
    match splitOnL ":".data timePart with
    | [hs, ms, ss] =>
      if hs.length ≤ 2 && ms.length ≤ 2 && ss.length ≤ 2 then
        match parseYMD (String.mk datePart), parseNatAll hs, parseNatAll ms,
            parseNatAll ss with
        | some d, some hh, some mi, some sec =>
          mkPyDate d.year d.month d.day hh mi sec
        | _, _, _, _ => none
      else none
    | _ => none
  | _ => none

/-- Strict `YYYY-MM-DD` (zero-padded, 4-2-2 digits), the date part accepted
by `datetime.fromisoformat`. -/
def parseYMDStrict (cs : List Char) : Option PyDateTime :=
  match splitOnL "-".data cs with
  | [ys, ms, ds] =>
    if ys.length = 4 && ms.length = 2 && ds.length = 2 then
      match parseNatAll ys, parseNatAll ms, parseNatAll ds with
      | some y, some m, some d => mkPyDate y m d 0 0 0
      | _, _, _ => none
    else none
  | _ => none

/-- Split a character list at its first `+` or `-` (the start of an ISO
timezone offset), returning the part before it and, when a sign was found,
the part after it. -/
def splitAtSign : List Char → List Char × Option (List Char)
  | [] => ([], none)
  | c :: t =>
    if c = '+' || c = '-' then ([], some t)
    else
      let r := splitAtSign t
      (c :: r.1, r.2)

/-- An ISO `HH:MM[:SS]` time-of-day with two-digit fields (fractional
seconds, which only refine sub-second precision, are not modelled). -/
def parseIsoTime (cs : List Char) : Option (Nat × Nat × Nat) :=
  match splitOnL ":".data cs with
  | [hs, ms] =>
    if hs.length = 2 && ms.length = 2 then
      match parseNatAll hs, parseNatAll ms with
      | some hh, some mi => some (hh, mi, 0)
      | _, _ => none
    else none
  | [hs, ms, ss] =>
    if hs.length = 2 && ms.length = 2 && ss.length = 2 then
      match parseNatAll hs, parseNatAll ms, parseNatAll ss with
      | some hh, some mi, some sec => some (hh, mi, sec)
      | _, _, _ => none
    else none
  | _ => none

/-- A valid ISO offset body `HH:MM[:SS]` (the sign has been consumed by
`splitAtSign`; the offset itself is discarded because `_parse_date` strips
the timezone with `replace(tzinfo=None)`). -/
def validOffset (cs : List Char) : Bool :=
  (parseIsoTime cs).isSome

/-- Python `datetime.fromisoformat(s.replace('Z', '+00:00'))` followed by
`replace(tzinfo=None)` (search.py line 201), modelled on the CPython
grammar `YYYY-MM-DD[<sep>HH:MM[:SS][(+|-)HH:MM[:SS]]]` with one arbitrary
separator character after the date (fractional seconds not modelled). -/
def parseIso (s0 : String) : Option PyDateTime :=
  let cs := replaceAllL "Z".data "+00:00".data s0.data
  match parseYMDStrict (cs.take 10) with
  | none => none
  | some d =>
    match cs.drop 10 with
    | [] => some d
    | _sep :: tpart =>
      let sp := splitAtSign tpart
      match parseIsoTime sp.1 with
      | none => none
      | some (hh, mi, sec) =>
        match sp.2 with
        | none => mkPyDate d.year d.month d.day hh mi sec
        | some off =>
          if validOffset off then mkPyDate d.year d.month d.day hh mi sec
          else none

/-- `SearchManager._parse_date` (search.py lines 195-210) on a stored date
string: try `fromisoformat` (after the `Z` replacement), then
`strptime("%Y-%m-%d %H:%M:%S")`, then `strptime(s[:10], "%Y-%m-%d")`, and
default to `datetime.min` when everything fails.  (The `isinstance`
branch for values that are already datetimes never fires for rows read
from SQLite, which yields strings.) -/
def parseDate (s : String) : PyDateTime :=
  match parseIso s with
  | some t => t
  | none =>
    match parseFull s with
    | some t => t
    | none =>
      match parseYMD (String.mk (s.data.take 10)) with
      | some t => t
      | none => pyDatetimeMin

/-- A row of the `emails` table (metadata_store.py): `uid` is the PRIMARY
KEY, so rows have pairwise-distinct uids. -/
structure DbEmail where
  uid : String
  subject : String
  sender : String
  date : String
  body : String
deriving DecidableEq

/-- An exact rational embedding of the Python float scores used by the
search code (which only ever forms them by sums of small integers, one
division, and `1 - distance`, all exactly representable): an unreduced
fraction `num / den`.  Ordering compares cross-multiplied values. -/
structure PyFloat where
  num : Int
  den : Nat
deriving DecidableEq

/-- Value comparison of two embedded float scores. -/
def pfLt (a b : PyFloat) : Bool :=
  a.num * (b.den : Int) < b.num * (a.den : Int)

/-- The float 0.0. -/
def pfZero : PyFloat := ⟨0, 1⟩

/-- The float `1 - d` for an embedded distance `d`. -/
def pfOneSub (d : PyFloat) : PyFloat :=
  ⟨(d.den : Int) - d.num, d.den⟩

/-- The exact value of an embedded float score, used only in proofs. -/
def pfVal (q : PyFloat) : ℚ :=
  (q.num : ℚ) / (q.den : ℚ)

/-- A result dict as built by `_fetch_metadata_for_uids` and
`keyword_fallback_search` (search.py): similarity scores are embedded as
exact fractions. -/
structure SearchResult where
  uid : String
  subject : String
  sender : String
  date : String
  bodyPreview : String
  fullBody : String
  similarity : PyFloat
deriving DecidableEq

/-- The body preview `body[:200] + '...' if len(body) > 200 else body`
(search.py line 188). -/
def mkPreview (body : String) : String :=
  if body.data.length > 200 then String.mk (body.data.take 200) ++ "..."
  else body

/-- Insert into a list sorted descending with respect to the strict
comparator `ltB` (helper for the descending sorts below); an element is
placed after all entries not strictly below it, which matches the
stability of Python's `list.sort`. -/
def insDescB {α : Type} (ltB : α → α → Bool) (x : α) : List α → List α
  | [] => [x]
  | y :: ys => if ltB y x then x :: y :: ys else y :: insDescB ltB x ys

/-- Stable descending sort: Python's `results.sort(key=..., reverse=True)`
and, for date keys, SQLite's `ORDER BY date DESC` (whose order among equal
keys is unspecified; it is modelled here as stable). -/
def sortDescB {α : Type} (ltB : α → α → Bool) (l : List α) : List α :=
  l.foldl (fun acc x => insDescB ltB x acc) []

/-- Strict lexicographic comparison of character lists by code point, the
order SQLite uses to compare TEXT values such as the stored `date`
column. -/
def charListLt : List Char → List Char → Bool
  | [], [] => false
  | [], _ :: _ => true
  | _ :: _, [] => false
  | a :: as, b :: bs => a.toNat < b.toNat || (a = b && charListLt as bs)

/-- Comparator for `ORDER BY date DESC` (TEXT affinity comparison). -/
def dateLtB (a b : DbEmail) : Bool :=
  charListLt a.date.data b.date.data

/-- Comparator for `results.sort(key=lambda x: x['similarity_score'],
reverse=True)`. -/
def simLtB (a b : SearchResult) : Bool :=
  pfLt a.similarity b.similarity

/-- The uid-collection loop of `search_emails_enhanced` (search.py lines
61-75): skip the FAISS padding id `-1`, look up `str(idx)` in
`faiss_id_to_uid` (a negative id other than `-1` matches no stored
`str(faiss_id)` key), and keep the uid only when the entry exists and the
uid is truthy (nonempty). -/
def collectUids (f2u : List (Nat × String)) (ids : List Int) : List String :=
  ids.foldl
    (fun acc idx =>
      if idx = -1 then acc
      else if idx < 0 then acc
      else
        match alookBy f2u idx.toNat with
        | some uid => if uid = "" then acc else acc ++ [uid]
        | none => acc)
    []

/-- `SearchManager._fetch_metadata_for_uids` (search.py lines 159-193):
hydrate each collected uid against the `emails` table (`uid` is the
primary key, so at most one row matches), build the result dict with a
200-character body preview, and attach `1 - distances[i]` as the
similarity score, where `i` indexes the collected uid list and `distances`
is the raw FAISS distance row. -/
def fetchMetadataForUids (db : List DbEmail) (uids : List String)
    (dists : List PyFloat) : List SearchResult :=
  uids.enum.filterMap
    (fun p =>
      match db.find? (fun e => e.uid == p.2) with
      | some e =>
        some { uid := e.uid, subject := e.subject, sender := e.sender,
               date := e.date, bodyPreview := mkPreview e.body,
               fullBody := e.body,
               similarity := match dists.get? p.1 with
                 | some dv => pfOneSub dv
                 | none => pfZero }
      | none => none)

/-- Date lower-bound filter of `search_emails_enhanced` (search.py line 87):
keep candidates with `_parse_date(email['date']) >= after_date`. -/
def dateAfterStage (d : PyDateTime) (rs : List SearchResult) :
    List SearchResult :=
  rs.filter (fun r => dtLe d (parseDate r.date))

/-- Date upper-bound filter of `search_emails_enhanced` (search.py line 92):
keep candidates with `_parse_date(email['date']) <= before_date`. -/
def dateBeforeStage (d : PyDateTime) (rs : List SearchResult) :
    List SearchResult :=
  rs.filter (fun r => dtLe (parseDate r.date) d)

/-- Sender filter of `search_emails_enhanced` (search.py line 97):
case-insensitive substring match against the stored sender. -/
def senderStage (sender : String) (rs : List SearchResult) :
    List SearchResult :=
  rs.filter (fun r => strContains (strLower r.sender) (strLower sender))

/-- Pattern filter of `search_emails_enhanced` (search.py lines 101-104):
the compiled pattern is searched in `email['body_preview']`, the
200-character preview, not in the full body.  The compiled regex is
embedded as the predicate `p` (`re.search` returning a match iff `p`
holds). -/
def regexStage (p : String → Bool) (rs : List SearchResult) :
    List SearchResult :=
  rs.filter (fun r => p r.bodyPreview)

/-- Modelled from the spec for comparison (claim C6 states the pattern is
matched "against each surviving candidate record's body"): the same filter
applied to the full body instead of the preview. -/
def regexStageOnBody (p : String → Bool) (rs : List SearchResult) :
    List SearchResult :=
  rs.filter (fun r => p r.fullBody)

/-- The optional date-lower-bound step of `search_emails_enhanced`
(search.py lines 85-88): parse `date_after` with
`strptime("%Y-%m-%d")` (raising — `none` — on failure) and filter. -/
def applyDateAfter (dateAfter : Option String) (rs : List SearchResult) :
    Option (List SearchResult) :=
  match dateAfter with
  | none => some rs
  | some s => (parseYMD s).map (fun dt => dateAfterStage dt rs)

/-- The optional date-upper-bound step of `search_emails_enhanced`
(search.py lines 90-93). -/
def applyDateBefore (dateBefore : Option String) (rs : List SearchResult) :
    Option (List SearchResult) :=
  match dateBefore with
  | none => some rs
  | some s => (parseYMD s).map (fun dt => dateBeforeStage dt rs)

/-- The optional sender step of `search_emails_enhanced` (search.py lines
96-98). -/
def applySender (sender : Option String) (rs : List SearchResult) :
    List SearchResult :=
  match sender with
  | none => rs
  | some sn => senderStage sn rs

/-- The optional pattern step of `search_emails_enhanced` (search.py lines
101-104). -/
def applyRx (rx : Option (String → Bool)) (rs : List SearchResult) :
    List SearchResult :=
  match rx with
  | none => rs
  | some p => regexStage p rs

/-- Outcome of a `search_emails_enhanced` call: the returned list plus an
instrumentation flag recording whether `_fetch_metadata_for_uids` (the
Metadata Store query) was invoked on the way. -/
structure SearchOutcome where
  results : List SearchResult
  storeInvoked : Bool
deriving DecidableEq

/-- `SearchManager.search_emails_enhanced` (search.py lines 42-116).  The
embedding of the query and the FAISS lookup are the external collaborator;
its reply is the argument `ids` (the row `indices[0]`, each entry either a
valid index position or the padding id `-1`) and `dists` (the row
`distances[0]`).  The function collects mapped uids (returning early, with
the Metadata Store untouched, when none survive), hydrates them, applies
the optional date-after, date-before, sender and pattern filters in that
order, sorts by descending similarity and truncates to `limit`.  A date
filter string that `datetime.strptime(_, "%Y-%m-%d")` rejects makes the
Python function raise; this is embedded as the `none` result. -/
def searchEmailsEnhanced (st : EmbState) (ids : List Int)
    (dists : List PyFloat)
    (db : List DbEmail) (dateAfter dateBefore sender : Option String)
    (rx : Option (String → Bool)) (limit : Nat) : Option SearchOutcome :=
  let uids := collectUids st.f2u ids
  if uids.isEmpty then some ⟨[], false⟩
  else
    let rs0 := fetchMetadataForUids db uids dists
    match applyDateAfter dateAfter rs0 with
    | none => none
    | some rs1 =>
      match applyDateBefore dateBefore rs1 with
      | none => none
      | some rs2 =>
        some ⟨(sortDescB simLtB
          (applyRx rx (applySender sender rs2))).take limit, true⟩

/-- A result of `EmbeddingManager.search_similar_emails`. -/
structure SimResult where
  uid : String
  similarity : PyFloat
  distance : PyFloat
deriving DecidableEq

/-- `EmbeddingManager.search_similar_emails` (embedding.py lines 141-169):
empty index short-circuits to `[]`; otherwise each FAISS neighbor
`(distance, idx)` contributes a result iff `idx != -1` and `str(idx)` has
a truthy entry in `faiss_id_to_uid`. -/
def searchSimilarEmails (st : EmbState) (nbrs : List (Int × PyFloat)) :
    List SimResult :=
  if st.ntotal = 0 then []
  else
    nbrs.foldl
      (fun (acc : List SimResult) (p : Int × PyFloat) =>
        if p.1 = -1 then acc
        else if p.1 < 0 then acc
        else
          match alookBy st.f2u p.1.toNat with
          | some uid =>
            if uid = "" then acc
            else acc ++
              [{ uid := uid, similarity := pfOneSub p.2, distance := p.2 }]
          | none => acc)
      []

/-- `SearchManager._calculate_keyword_relevance` (search.py lines 302-319):
+2 per query token found in the lowercased subject, +1 per token found in
the lowercased body, divided by the token count (0 for an empty query). -/
def keywordRelevance (query subject body : String) : PyFloat :=
  let keywords := pySplit (strLower query)
  let score : Int := keywords.foldl
    (fun s k =>
      s + (if strContains (strLower subject) k then (2 : Int) else 0)
        + (if strContains (strLower body) k then (1 : Int) else 0))
    0
  if keywords.isEmpty then pfZero else ⟨score, keywords.length⟩

/-- The SQL WHERE clause built by `keyword_fallback_search` (search.py
lines 247-261): for every token,
`LOWER(subject) LIKE %kw% OR LOWER(body) LIKE %kw%` (substring semantics
for wildcard-free tokens), AND, when given, `date >= :date_after` under
SQLite TEXT comparison. -/
def kwRowMatch (keywords : List String) (dateAfter : Option String)
    (e : DbEmail) : Bool :=
  keywords.all
    (fun k => strContains (strLower e.subject) k
      || strContains (strLower e.body) k)
  && (match dateAfter with
      | none => true
      | some d => !(charListLt e.date.data d.data))

/-- Build the result dict of `keyword_fallback_search` for one row. -/
def kwResult (query : String) (e : DbEmail) : SearchResult :=
  { uid := e.uid, subject := e.subject, sender := e.sender, date := e.date,
    bodyPreview := mkPreview e.body, fullBody := e.body,
    similarity := keywordRelevance query e.subject e.body }

/-- One iteration of the result loop of `keyword_fallback_search`
(search.py lines 272-291): skip the row when a regex is supplied and does
not match the full body, otherwise build the scored result dict. -/
def kwFormat (query : String) (rx : Option (String → Bool)) (e : DbEmail) :
    Option SearchResult :=
  match rx with
  | some p => if p e.body then some (kwResult query e) else none
  | none => some (kwResult query e)

/-- `SearchManager.keyword_fallback_search` (search.py lines 238-300): the
SQL query selects rows matching every token (and the optional date lower
bound), orders them by date descending and truncates to `limit`; only then
does Python filter by the regex (against the full body), score each
surviving row, and sort by descending relevance score. -/
def keywordFallbackSearch (db : List DbEmail) (query : String)
    (dateAfter : Option String) (rx : Option (String → Bool)) (limit : Nat) :
    List SearchResult :=
  let keywords := pySplit (strLower query)
  let fetched :=
    (sortDescB dateLtB (db.filter (kwRowMatch keywords dateAfter))).take limit
  let results := fetched.filterMap (kwFormat query rx)
  sortDescB simLtB results

/-- Modelled from the spec for comparison (claim C5 states the keyword
search returns exactly the records passing the token, date and pattern
filters, scored, sorted descending by score and truncated to `limit`): the
truncation here happens after scoring and score-sorting, on the full
matching set. -/
def keywordSearchSpecified (db : List DbEmail) (query : String)
    (dateAfter : Option String) (rx : Option (String → Bool)) (limit : Nat) :
    List SearchResult :=
  let keywords := pySplit (strLower query)
  let selected := db.filter
    (fun e => kwRowMatch keywords dateAfter e
      && (match rx with
          | some p => p e.body
          | none => true))
  (sortDescB simLtB (selected.map (kwResult query))).take limit

/-- The artifacts `_load_or_create_index` reads: the serialized FAISS index
(represented by its size when the file exists) and the JSON mapping file
with both dict directions. -/
structure PersistedState where
  indexFile : Option Nat
  mappingFile : Option (List (String × Nat) × List (Nat × String))
deriving DecidableEq

/-- `EmbeddingManager._load_or_create_index` together with `_load_mapping`
(embedding.py lines 39-66): an existing index file is loaded and the
mapping file is loaded when present (empty dicts otherwise); with no index
file a fresh empty index and empty dicts are created.  The `Except String`
result records whether the load path raises a consistency error; the
source contains no such check, so no input produces `Except.error`. -/
def loadOrCreateIndex (p : PersistedState) : Except String EmbState :=
  match p.indexFile with
  | some n =>
    match p.mappingFile with
    | some m => Except.ok ⟨n, m.1, m.2, []⟩
    | none => Except.ok ⟨n, [], [], []⟩
  | none => Except.ok ⟨0, [], [], []⟩

/-- `EmbeddingManager.clear_index` (embedding.py lines 171-184): delete the
persisted artifacts, reset both dicts, recreate an empty index.  The
oracle-call trace is instrumentation, not program state, and is kept. -/
def clearIndex (st : EmbState) : EmbState :=
  ⟨0, [], [], st.trace⟩

/-- The state a fetch cycle manipulates: the persisted UIDVALIDITY token
(`uidvalidity.txt`), the Metadata Store contents (`emails` table rows) and
the embedding state (Vector Index + Identity Map). -/
structure SysState where
  persistedToken : Option Int
  metaEmails : List DbEmail
  emb : EmbState
deriving DecidableEq

/-- `IMAPClient.check_uid_validity` (imap_client.py lines 128-163) on a
successfully observed current UIDVALIDITY token: first observation ever
persists the token and reports no change; a changed token is persisted and
reported as changed; an unchanged token is left alone. -/
def checkUidValidity (current : Int) (persisted : Option Int) :
    Bool × Option Int :=
  match persisted with
  | none => (false, some current)
  | some last =>
    if current = last then (false, some last) else (true, some current)

/-- The UIDVALIDITY block of `main.fetch_emails` (main.py lines 59-66): when
`check_uid_validity` reports a change, `metadata_store.clear()` empties the
`emails` table and `clear_index()` discards the Vector Index and Identity
Map. -/
def fetchCycleWipe (current : Int) (st : SysState) : SysState :=
  let r := checkUidValidity current st.persistedToken
  if r.1 then ⟨r.2, [], clearIndex st.emb⟩
  else ⟨r.2, st.metaEmails, st.emb⟩

/-- Helper for `cleanEmailForSearch`: the `re.sub(r'\n{2,}', '\n', _)`
step; collapsing every newline run to one newline agrees with the regex,
which only rewrites runs of length at least two.  Fuel-indexed (one unit
per consumed character) to keep the recursion structural. -/
def collapseNL : Nat → List Char → List Char
  | _, [] => []
  | 0, cs => cs
  | fuel + 1, c :: t =>
    if c = '\n' then '\n' :: collapseNL fuel (t.dropWhile (fun x => x = '\n'))
    else c :: collapseNL fuel t

/-- `email_cleaner.clean_email_for_search` (email_cleaner.py lines
204-224): the derived search text stored as the record's
`search_content` field — subject and body joined by a blank line, with
`[URL]`/`[EMAIL]` markers removed, newline runs collapsed, and the result
stripped. -/
def cleanEmailForSearch (subject body : String) : String :=
  let t := (subject ++ "\n\n" ++ body).data
  let t := replaceAllL "[URL]".data [] t
  let t := replaceAllL "[EMAIL]".data [] t
  let t := collapseNL t.length t
  String.mk (stripL t)

/-- Closed form of the uid-direction entries appended by the mapping loop
of `_embed_batch` for a fresh batch: the i-th record maps to position
`n + i`. -/
def pairsU (n : Nat) : List Email → List (String × Nat)
  | [] => []
  | e :: es => (e.uid, n) :: pairsU (n + 1) es

/-- Closed form of the position-direction entries appended by the mapping
loop of `_embed_batch` for a fresh batch. -/
def pairsF (n : Nat) : List Email → List (Nat × String)
  | [] => []
  | e :: es => (n, e.uid) :: pairsF (n + 1) es

/-- The Identity Map consistency invariant of the spec, over the embedded
`EmbeddingManager` state: both dicts have duplicate-free keys, the two
directions are mutually inverse, the positions with an entry are exactly
`[0, ntotal)`, and both dicts have exactly `ntotal` entries. -/
def IdentityMapInv (st : EmbState) : Prop :=
  (st.u2f.map Prod.fst).Nodup ∧
  (st.f2u.map Prod.fst).Nodup ∧
  (∀ u p, alookBy st.u2f u = some p ↔ alookBy st.f2u p = some u) ∧
  (∀ p, p < st.ntotal ↔ (alookBy st.f2u p).isSome = true) ∧
  st.u2f.length = st.ntotal ∧ st.f2u.length = st.ntotal

/-- Concrete record for the witnesses: external_id "1". -/
def demoE1 : Email := ⟨"1", "s1", "a@x", "first body", "2024-01-01"⟩

/-- Concrete record for the witnesses: external_id "2". -/
def demoE2 : Email := ⟨"2", "s2", "b@x", "second body", "2024-01-02"⟩

/-- Concrete record for the witnesses: external_id "3". -/
def demoE3 : Email := ⟨"3", "s3", "c@x", "third body", "2024-01-03"⟩

/-- The spec's three-record indexing scenario, as one `index()` call. -/
def demoCalls : List (List Email) := [[demoE1, demoE2, demoE3]]

/-- Concrete record with a nonempty subject, for the C4 counterexample. -/
def demoE4 : Email := ⟨"9", "Invoice", "s@x", "pay now please", ""⟩

/-- A concrete Metadata Store row whose stored date is absent (empty). -/
def demoDb1 : DbEmail := ⟨"u1", "subj one", "sender@x", "", "hello body"⟩

/-- A concrete embedding state with one indexed record. -/
def demoSt1 : EmbState := ⟨1, [("u1", 0)], [(0, "u1")], []⟩

/-- Keyword-search row matched via its subject (higher score). -/
def demoDbA : DbEmail := ⟨"a", "alpha report", "x@y", "2024-01-01", "xxxx"⟩

/-- Keyword-search row matched only via its body (lower score) but with the
more recent date. -/
def demoDbB : DbEmail := ⟨"b", "nothing", "x@y", "2024-02-01", "alpha"⟩

/-- A body of 201 characters whose last character is the only `z`. -/
def demoLongBody : String := String.mk (List.replicate 200 'a' ++ ['z'])

/-- Row whose body only matches the pattern beyond the 200-char preview. -/
def demoDb6 : DbEmail := ⟨"u6", "subj", "s@x", "2024-01-01", demoLongBody⟩

/-- The compiled pattern `z` as a predicate (`re.search('z', s)`). -/
def demoRxZ : String → Bool := fun s => strContains s "z"

/-- The compiled pattern `x` as a predicate (`re.search('x', s)`). -/
def demoRxX : String → Bool := fun s => strContains s "x"

/-- The hydrated result for `demoDbA` (distance 0). -/
def demoRes1 : SearchResult :=
  ⟨"a", "alpha report", "x@y", "2024-01-01", "xxxx", "xxxx", ⟨1, 1⟩⟩

/-- The hydrated result for `demoDb1` (distance 0, absent date). -/
def demoRes0 : SearchResult :=
  ⟨"u1", "subj one", "sender@x", "", "hello body", "hello body", ⟨1, 1⟩⟩

/-- The largest datetime Python accepts, as an upper filter bound. -/
def demoDtMax : PyDateTime := ⟨9999, 12, 31, 23, 59, 59⟩

/-! Lemmas about the embedded Python dicts. -/

theorem alookBy_append {α β : Type} [DecidableEq α] (m1 m2 : List (α × β))
    (k : α) :
    alookBy (m1 ++ m2) k =
      match alookBy m1 k with
      | some v => some v
      | none => alookBy m2 k := by
  induction m1 with
  | nil => simp [alookBy]
  | cons q t ih =>
    obtain ⟨k', v⟩ := q
    by_cases h : k' = k
    · simp [alookBy, h]
    · simpa [alookBy, h] using ih

theorem alookBy_eq_none_iff {α β : Type} [DecidableEq α] (m : List (α × β))
    (k : α) :
    alookBy m k = none ↔ k ∉ m.map Prod.fst := by
  induction m with
  | nil => simp [alookBy]
  | cons q t ih =>
    obtain ⟨k', v⟩ := q
    by_cases h : k' = k
    · subst h
      simp [alookBy]
    · simp only [alookBy, if_neg h, List.map_cons, List.mem_cons, ih]
      constructor
      · intro hk hor
        rcases hor with h1 | h2
        · exact h h1.symm
        · exact hk h2
      · intro hall h2
        exact hall (Or.inr h2)

theorem containsKeyBy_iff_mem {α β : Type} [DecidableEq α] (m : List (α × β))
    (k : α) :
    containsKeyBy m k = true ↔ k ∈ m.map Prod.fst := by
  rw [containsKeyBy, Option.isSome_iff_ne_none, ne_eq, alookBy_eq_none_iff]
  simp

theorem mapInsert_of_fresh {α β : Type} [DecidableEq α] (m : List (α × β))
    (k : α) (v : β) (h : alookBy m k = none) :
    mapInsert m k v = m ++ [(k, v)] := by
  simp [mapInsert, containsKeyBy, h]

theorem keys_mapInsert {α β : Type} [DecidableEq α] (m : List (α × β))
    (k : α) (v : β) :
    (mapInsert m k v).map Prod.fst =
      if containsKeyBy m k then m.map Prod.fst else m.map Prod.fst ++ [k] := by
  unfold mapInsert
  by_cases h : containsKeyBy m k
  · simp only [h, if_true, List.map_map]
    refine List.map_congr_left ?_
    intro p _
    by_cases hp : p.1 = k
    · simp [Function.comp, hp]
    · simp [Function.comp, hp]
  · simp [h]

theorem containsKeyBy_mapInsert_mono {α β : Type} [DecidableEq α]
    (m : List (α × β)) (k k' : α) (v : β)
    (h : containsKeyBy m k' = true) :
    containsKeyBy (mapInsert m k v) k' = true := by
  rw [containsKeyBy_iff_mem] at h ⊢
  rw [keys_mapInsert]
  by_cases hc : containsKeyBy m k
  · rw [if_pos hc]
    exact h
  · rw [if_neg hc]
    exact List.mem_append_left _ h

theorem containsKeyBy_mapInsert_self {α β : Type} [DecidableEq α]
    (m : List (α × β)) (k : α) (v : β) :
    containsKeyBy (mapInsert m k v) k = true := by
  rw [containsKeyBy_iff_mem, keys_mapInsert]
  by_cases hc : containsKeyBy m k
  · rw [if_pos hc]
    exact (containsKeyBy_iff_mem m k).mp hc
  · rw [if_neg hc]
    exact List.mem_append_right _ (by simp)

/-! Closed forms for the mapping entries created by a fresh batch. -/

theorem pairsU_length (n : Nat) (b : List Email) :
    (pairsU n b).length = b.length := by
  induction b generalizing n with
  | nil => simp [pairsU]
  | cons e es ih => simp [pairsU, ih]

theorem pairsF_length (n : Nat) (b : List Email) :
    (pairsF n b).length = b.length := by
  induction b generalizing n with
  | nil => simp [pairsF]
  | cons e es ih => simp [pairsF, ih]

theorem pairsU_keys (n : Nat) (b : List Email) :
    (pairsU n b).map Prod.fst = b.map Email.uid := by
  induction b generalizing n with
  | nil => simp [pairsU]
  | cons e es ih => simp [pairsU, ih]

theorem pairsF_keys_mem (n : Nat) (b : List Email) (p : Nat) :
    p ∈ (pairsF n b).map Prod.fst ↔ n ≤ p ∧ p < n + b.length := by
  induction b generalizing n with
  | nil => simp [pairsF]
  | cons e es ih =>
    simp only [pairsF, List.map_cons, List.mem_cons, ih, List.length_cons]
    constructor
    · rintro (h | ⟨h1, h2⟩) <;> omega
    · rintro ⟨h1, h2⟩
      by_cases h : p = n
      · exact Or.inl h
      · exact Or.inr ⟨by omega, by omega⟩

theorem pairsF_keys_nodup (n : Nat) (b : List Email) :
    ((pairsF n b).map Prod.fst).Nodup := by
  induction b generalizing n with
  | nil => simp [pairsF]
  | cons e es ih =>
    simp only [pairsF, List.map_cons, List.nodup_cons]
    refine ⟨?_, ih (n + 1)⟩
    rw [pairsF_keys_mem]
    omega

theorem pairsU_append (n : Nat) (l1 l2 : List Email) :
    pairsU n (l1 ++ l2) = pairsU n l1 ++ pairsU (n + l1.length) l2 := by
  induction l1 generalizing n with
  | nil => simp [pairsU]
  | cons e es ih =>
    show pairsU n (e :: (es ++ l2)) = _
    simp only [pairsU, List.cons_append, List.length_cons]
    rw [ih (n + 1), show n + (es.length + 1) = n + 1 + es.length by omega]

theorem pairsF_append (n : Nat) (l1 l2 : List Email) :
    pairsF n (l1 ++ l2) = pairsF n l1 ++ pairsF (n + l1.length) l2 := by
  induction l1 generalizing n with
  | nil => simp [pairsF]
  | cons e es ih =>
    show pairsF n (e :: (es ++ l2)) = _
    simp only [pairsF, List.cons_append, List.length_cons]
    rw [ih (n + 1), show n + (es.length + 1) = n + 1 + es.length by omega]

theorem alookBy_pairsF_eq (n : Nat) (b : List Email) (p : Nat) :
    alookBy (pairsF n b) p =
      if n ≤ p then (b[p - n]?).map Email.uid else none := by
  induction b generalizing n with
  | nil => simp [pairsF, alookBy]
  | cons e es ih =>
    simp only [pairsF, alookBy]
    by_cases h : n = p
    · subst h
      simp
    · rw [if_neg h, ih (n + 1)]
      by_cases h2 : n ≤ p
      · rw [if_pos (by omega : n + 1 ≤ p), if_pos h2,
          show p - n = (p - (n + 1)) + 1 by omega, List.getElem?_cons_succ]
      · rw [if_neg (by omega : ¬n + 1 ≤ p), if_neg h2]

theorem alookBy_pairsU_of_not_mem (n : Nat) (b : List Email) (u : String)
    (h : u ∉ b.map Email.uid) : alookBy (pairsU n b) u = none := by
  induction b generalizing n with
  | nil => simp [pairsU, alookBy]
  | cons e es ih =>
    simp only [List.map_cons, List.mem_cons] at h
    push_neg at h
    simp only [pairsU, alookBy]
    rw [if_neg (fun he => h.1 he.symm), ih _ h.2]

theorem alookBy_pairsU_iff (n : Nat) (b : List Email) (u : String) (q : Nat)
    (hnd : (b.map Email.uid).Nodup) :
    alookBy (pairsU n b) u = some q ↔
      n ≤ q ∧ (b[q - n]?).map Email.uid = some u := by
  induction b generalizing n with
  | nil => simp [pairsU, alookBy]
  | cons e es ih =>
    simp only [List.map_cons, List.nodup_cons] at hnd
    simp only [pairsU, alookBy]
    by_cases h : e.uid = u
    · subst h
      rw [if_pos rfl]
      constructor
      · intro h'
        injection h' with h''
        subst h''
        simp
      · rintro ⟨hq, hget⟩
        by_cases hq2 : q = n
        · subst hq2
          simp
        · exfalso
          rw [show q - n = (q - (n + 1)) + 1 by omega,
            List.getElem?_cons_succ] at hget
          obtain ⟨a, ha, hau⟩ := Option.map_eq_some'.mp hget
          exact hnd.1 (hau ▸ List.mem_map_of_mem Email.uid
            (List.getElem?_mem ha))
    · rw [if_neg h, ih (n + 1) hnd.2]
      constructor
      · rintro ⟨hq, hget⟩
        rw [show q - n = (q - (n + 1)) + 1 by omega, List.getElem?_cons_succ]
        exact ⟨by omega, hget⟩
      · rintro ⟨hq, hget⟩
        by_cases hq2 : q = n
        · subst hq2
          rw [Nat.sub_self, List.getElem?_cons_zero] at hget
          exact absurd (by injection hget) h
        · rw [show q - n = (q - (n + 1)) + 1 by omega,
            List.getElem?_cons_succ] at hget
          exact ⟨by omega, hget⟩

/-! Closed forms for a fresh batch and for chunked batch processing. -/

theorem addPairs_closed (n : Nat) (u2f : List (String × Nat))
    (f2u : List (Nat × String)) (b : List Email)
    (hfresh : ∀ e ∈ b, alookBy u2f e.uid = none)
    (hnd : (b.map Email.uid).Nodup)
    (hpos : ∀ p ∈ f2u.map Prod.fst, p < n) :
    addPairs n u2f f2u b = (u2f ++ pairsU n b, f2u ++ pairsF n b) := by
  induction b generalizing n u2f f2u with
  | nil => simp [addPairs, pairsU, pairsF]
  | cons e es ih =>
    simp only [List.map_cons, List.nodup_cons] at hnd
    have hu : mapInsert u2f e.uid n = u2f ++ [(e.uid, n)] :=
      mapInsert_of_fresh _ _ _ (hfresh e (List.mem_cons_self e es))
    have hfn : alookBy f2u n = none :=
      (alookBy_eq_none_iff f2u n).mpr (fun hm => Nat.lt_irrefl n (hpos n hm))
    have hf : mapInsert f2u n e.uid = f2u ++ [(n, e.uid)] :=
      mapInsert_of_fresh _ _ _ hfn
    have hfresh2 : ∀ e' ∈ es, alookBy (u2f ++ [(e.uid, n)]) e'.uid = none := by
      intro e' he'
      have hne : ¬e.uid = e'.uid := by
        intro hx
        apply hnd.1
        rw [hx]
        exact List.mem_map_of_mem Email.uid he'
      rw [alookBy_append, hfresh e' (List.mem_cons_of_mem e he')]
      show alookBy [(e.uid, n)] e'.uid = none
      simp only [alookBy]
      rw [if_neg hne]
    have hpos2 : ∀ p ∈ (f2u ++ [(n, e.uid)]).map Prod.fst, p < n + 1 := by
      intro p hp
      simp only [List.map_append, List.mem_append, List.map_cons,
        List.map_nil, List.mem_singleton] at hp
      rcases hp with hp | hp
      · exact Nat.lt_succ_of_lt (hpos p hp)
      · omega
    simp only [addPairs, hu, hf]
    rw [ih (n + 1) _ _ hfresh2 hnd.2 hpos2]
    simp [pairsU, pairsF, List.append_assoc]

theorem embedBatch_closed (st : EmbState) (b : List Email)
    (hfresh : ∀ e ∈ b, alookBy st.u2f e.uid = none)
    (hnd : (b.map Email.uid).Nodup)
    (hpos : ∀ p ∈ st.f2u.map Prod.fst, p < st.ntotal) :
    embedBatch st b =
      ⟨st.ntotal + b.length, st.u2f ++ pairsU st.ntotal b,
        st.f2u ++ pairsF st.ntotal b,
        st.trace ++ [b.map (fun e => e.body)]⟩ := by
  simp [embedBatch, addPairs_closed st.ntotal st.u2f st.f2u b hfresh hnd hpos]

theorem containsKeyBy_addPairs_mono (n : Nat) (u2f : List (String × Nat))
    (f2u : List (Nat × String)) (b : List Email) (k : String)
    (h : containsKeyBy u2f k = true) :
    containsKeyBy (addPairs n u2f f2u b).1 k = true := by
  induction b generalizing n u2f f2u with
  | nil => simpa [addPairs]
  | cons e es ih =>
    simp only [addPairs]
    exact ih _ _ _ (containsKeyBy_mapInsert_mono _ _ _ _ h)

theorem containsKeyBy_addPairs_of_mem (n : Nat) (u2f : List (String × Nat))
    (f2u : List (Nat × String)) (b : List Email) (e : Email) (he : e ∈ b) :
    containsKeyBy (addPairs n u2f f2u b).1 e.uid = true := by
  induction b generalizing n u2f f2u with
  | nil => cases he
  | cons e' es ih =>
    simp only [addPairs]
    rcases List.mem_cons.mp he with h | h
    · subst h
      exact containsKeyBy_addPairs_mono _ _ _ _ _
        (containsKeyBy_mapInsert_self _ _ _)
    · exact ih _ _ _ h

theorem containsKeyBy_embedBatch_mono (st : EmbState) (b : List Email)
    (k : String) (h : containsKeyBy st.u2f k = true) :
    containsKeyBy (embedBatch st b).u2f k = true :=
  containsKeyBy_addPairs_mono _ _ _ _ _ h

theorem containsKeyBy_embedBatch_of_mem (st : EmbState) (b : List Email)
    (e : Email) (he : e ∈ b) :
    containsKeyBy (embedBatch st b).u2f e.uid = true :=
  containsKeyBy_addPairs_of_mem _ _ _ _ _ he

theorem chunksOf_flatten_aux {α : Type} (B : Nat) (hB : 0 < B) :
    ∀ (n : Nat) (l : List α), l.length ≤ n → (chunksOf B l).flatten = l := by
  intro n
  induction n with
  | zero =>
    intro l hl
    have h0 : l = [] := List.eq_nil_of_length_eq_zero (Nat.le_zero.mp hl)
    subst h0
    simp [chunksOf]
  | succ n ih =>
    intro l hl
    match l with
    | [] => simp [chunksOf]
    | x :: xs =>
      rw [chunksOf]
      simp only [dif_neg (Nat.pos_iff_ne_zero.mp hB)]
      have hlen : ((x :: xs).drop B).length ≤ n := by
        simp only [List.length_drop, List.length_cons]
        simp only [List.length_cons] at hl
        omega
      rw [List.flatten_cons, ih _ hlen, List.take_append_drop]

theorem chunksOf_join {α : Type} (B : Nat) (hB : 0 < B) (l : List α) :
    (chunksOf B l).flatten = l :=
  chunksOf_flatten_aux B hB l.length l (Nat.le_refl _)

theorem foldl_contains (bs : List (List Email)) (st : EmbState) (k : String)
    (h : containsKeyBy st.u2f k = true ∨ ∃ b ∈ bs, ∃ e ∈ b, e.uid = k) :
    containsKeyBy (bs.foldl embedBatch st).u2f k = true := by
  induction bs generalizing st with
  | nil =>
    rcases h with h | ⟨b, hb, _⟩
    · simpa using h
    · cases hb
  | cons b rest ih =>
    simp only [List.foldl_cons]
    rcases h with h | ⟨b', hb', e, he, hek⟩
    · exact ih _ (Or.inl (containsKeyBy_embedBatch_mono st b k h))
    · rcases List.mem_cons.mp hb' with hb1 | hb1
      · subst hb1
        exact ih _ (Or.inl (hek ▸ containsKeyBy_embedBatch_of_mem st b' e he))
      · exact ih _ (Or.inr ⟨b', hb1, e, he, hek⟩)

theorem foldl_embedBatch_closed (bs : List (List Email)) (st : EmbState)
    (hfresh : ∀ e ∈ bs.flatten, alookBy st.u2f e.uid = none)
    (hnd : (bs.flatten.map Email.uid).Nodup)
    (hpos : ∀ p ∈ st.f2u.map Prod.fst, p < st.ntotal) :
    bs.foldl embedBatch st =
      ⟨st.ntotal + bs.flatten.length,
        st.u2f ++ pairsU st.ntotal bs.flatten,
        st.f2u ++ pairsF st.ntotal bs.flatten,
        st.trace ++ bs.map (fun b => b.map (fun e => e.body))⟩ := by
  induction bs generalizing st with
  | nil =>
    simp only [List.foldl_nil, List.flatten_nil, pairsU, pairsF, List.map_nil]
    cases st
    simp
  | cons b rest ih =>
    rw [List.flatten_cons] at hfresh hnd
    rw [List.map_append, List.nodup_append] at hnd
    obtain ⟨hndb, hndr, hdisj⟩ := hnd
    have hfb : ∀ e ∈ b, alookBy st.u2f e.uid = none := fun e he =>
      hfresh e (List.mem_append_left _ he)
    have hclosed := embedBatch_closed st b hfb hndb hpos
    have hfresh1 : ∀ e ∈ rest.flatten,
        alookBy (embedBatch st b).u2f e.uid = none := by
      intro e he
      rw [hclosed]
      show alookBy (st.u2f ++ pairsU st.ntotal b) e.uid = none
      rw [alookBy_append, hfresh e (List.mem_append_right _ he)]
      show alookBy (pairsU st.ntotal b) e.uid = none
      apply alookBy_pairsU_of_not_mem
      intro hmem
      exact hdisj hmem (List.mem_map_of_mem Email.uid he)
    have hpos1 : ∀ p ∈ (embedBatch st b).f2u.map Prod.fst,
        p < (embedBatch st b).ntotal := by
      intro p hp
      rw [hclosed] at hp ⊢
      simp only [List.map_append, List.mem_append] at hp
      show p < st.ntotal + b.length
      rcases hp with hp | hp
      · exact Nat.lt_of_lt_of_le (hpos p hp) (Nat.le_add_right _ _)
      · exact ((pairsF_keys_mem _ _ _).mp hp).2
    rw [List.foldl_cons, ih _ hfresh1 hndr hpos1, hclosed]
    simp only [pairsU_append, pairsF_append, List.flatten_cons,
      List.length_append, List.map_cons, EmbState.mk.injEq]
    refine ⟨by omega, ?_, ?_, ?_⟩ <;> simp [List.append_assoc]

theorem alookBy_of_not_containsKey {α β : Type} [DecidableEq α]
    (m : List (α × β)) (k : α) (h : containsKeyBy m k = false) :
    alookBy m k = none := by
  rw [containsKeyBy] at h
  cases hm : alookBy m k
  · rfl
  · rw [hm] at h
    cases h

theorem embedEmails_nil (B : Nat) (st : EmbState) :
    embedEmails B st [] = (st, 0) := by
  simp [embedEmails]

theorem embedEmails_nonew (B : Nat) (st : EmbState) (c : List Email)
    (h : newOf st c = []) : embedEmails B st c = (st, 0) := by
  by_cases hc : c = [] <;> simp [embedEmails, hc, h]

theorem embedEmails_new (B : Nat) (st : EmbState) (c : List Email)
    (hc : c ≠ []) (h : newOf st c ≠ []) :
    embedEmails B st c =
      ((chunksOf B (newOf st c)).foldl embedBatch st, (newOf st c).length) := by
  simp [embedEmails, hc, h]

theorem newOf_uid_nodup (st : EmbState) (c : List Email)
    (hnd : (c.map Email.uid).Nodup) : ((newOf st c).map Email.uid).Nodup := by
  have hsub : List.Sublist ((newOf st c).map Email.uid) (c.map Email.uid) :=
    (List.filter_sublist c).map Email.uid
  exact hnd.sublist hsub

theorem newOf_fresh (st : EmbState) (c : List Email) :
    ∀ e ∈ newOf st c, alookBy st.u2f e.uid = none := by
  intro e he
  have h2 := (List.mem_filter.mp he).2
  apply alookBy_of_not_containsKey
  simpa using h2

theorem embedEmails_state_closed (B : Nat) (hB : 0 < B) (st : EmbState)
    (c : List Email)
    (hpos : ∀ p ∈ st.f2u.map Prod.fst, p < st.ntotal)
    (hnd : (c.map Email.uid).Nodup) (hc : c ≠ []) (hne : newOf st c ≠ []) :
    (embedEmails B st c).1 =
      ⟨st.ntotal + (newOf st c).length,
        st.u2f ++ pairsU st.ntotal (newOf st c),
        st.f2u ++ pairsF st.ntotal (newOf st c),
        st.trace ++
          (chunksOf B (newOf st c)).map (fun b => b.map (fun e => e.body))⟩ := by
  rw [embedEmails_new B st c hc hne]
  have hfl : (chunksOf B (newOf st c)).flatten = newOf st c :=
    chunksOf_join B hB _
  have hfresh : ∀ e ∈ (chunksOf B (newOf st c)).flatten,
      alookBy st.u2f e.uid = none := by
    rw [hfl]
    exact newOf_fresh st c
  have hndn : ((chunksOf B (newOf st c)).flatten.map Email.uid).Nodup := by
    rw [hfl]
    exact newOf_uid_nodup st c hnd
  show (chunksOf B (newOf st c)).foldl embedBatch st = _
  rw [foldl_embedBatch_closed _ _ hfresh hndn hpos, hfl]

theorem keys_lt_of_inv (st : EmbState) (hinv : IdentityMapInv st) :
    ∀ p ∈ st.f2u.map Prod.fst, p < st.ntotal := by
  intro p hp
  have hne : alookBy st.f2u p ≠ none :=
    fun h => ((alookBy_eq_none_iff _ _).mp h) hp
  have hs : (alookBy st.f2u p).isSome = true := by
    cases h : alookBy st.f2u p
    · exact absurd h hne
    · rfl
  exact (hinv.2.2.2.1 p).mpr hs

theorem mem_keys_of_alookBy_some {α β : Type} [DecidableEq α]
    {m : List (α × β)} {k : α} {v : β} (h : alookBy m k = some v) :
    k ∈ m.map Prod.fst := by
  by_contra hk
  rw [(alookBy_eq_none_iff m k).mpr hk] at h
  cases h

theorem identityMapInv_embedEmails (B : Nat) (hB : 0 < B) (st : EmbState)
    (c : List Email) (hinv : IdentityMapInv st)
    (hnd : (c.map Email.uid).Nodup) :
    IdentityMapInv (embedEmails B st c).1 := by
  by_cases hc : c = []
  · subst hc
    rw [embedEmails_nil]
    exact hinv
  by_cases hne : newOf st c = []
  · rw [embedEmails_nonew B st c hne]
    exact hinv
  have hposF := keys_lt_of_inv st hinv
  rw [embedEmails_state_closed B hB st c hposF hnd hc hne]
  obtain ⟨h1, h2, h3, h4, h5, h6⟩ := hinv
  have hndn : ((newOf st c).map Email.uid).Nodup := newOf_uid_nodup st c hnd
  refine ⟨?_, ?_, ?_, ?_, ?_, ?_⟩
  · show ((st.u2f ++ pairsU st.ntotal (newOf st c)).map Prod.fst).Nodup
    rw [List.map_append, pairsU_keys, List.nodup_append]
    refine ⟨h1, hndn, ?_⟩
    intro a ha hb
    obtain ⟨e, he, heq⟩ := List.mem_map.mp hb
    have hfr := newOf_fresh st c e he
    rw [heq] at hfr
    exact ((alookBy_eq_none_iff _ _).mp hfr) ha
  · show ((st.f2u ++ pairsF st.ntotal (newOf st c)).map Prod.fst).Nodup
    rw [List.map_append, List.nodup_append]
    refine ⟨h2, pairsF_keys_nodup _ _, ?_⟩
    intro p hp hq
    have hlt := hposF p hp
    have hge := (pairsF_keys_mem _ _ _).mp hq
    omega
  · intro u p
    show alookBy (st.u2f ++ pairsU st.ntotal (newOf st c)) u = some p ↔
      alookBy (st.f2u ++ pairsF st.ntotal (newOf st c)) p = some u
    rw [alookBy_append, alookBy_append]
    cases hU : alookBy st.u2f u with
    | some q =>
      have hF : alookBy st.f2u q = some u := (h3 u q).mp hU
      constructor
      · intro hsq
        injection hsq with hpq
        subst hpq
        rw [hF]
      · intro hr
        cases hFp : alookBy st.f2u p with
        | some u' =>
          rw [hFp] at hr
          injection hr with hu'
          subst hu'
          have hup := (h3 u' p).mpr hFp
          rw [hU] at hup
          injection hup with hqp
          rw [hqp]
        | none =>
          rw [hFp] at hr
          rw [alookBy_pairsF_eq] at hr
          by_cases hnp : st.ntotal ≤ p
          · rw [if_pos hnp] at hr
            obtain ⟨e, hgete, heu⟩ := Option.map_eq_some'.mp hr
            have hmem : e ∈ newOf st c := List.getElem?_mem hgete
            have hfr := newOf_fresh st c e hmem
            rw [heu] at hfr
            rw [hfr] at hU
            cases hU
          · rw [if_neg hnp] at hr
            cases hr
    | none =>
      rw [alookBy_pairsU_iff _ _ _ _ hndn]
      cases hFp : alookBy st.f2u p with
      | some u' =>
        have hpn : p < st.ntotal := hposF p (mem_keys_of_alookBy_some hFp)
        constructor
        · rintro ⟨hnp, _⟩
          omega
        · intro hr
          injection hr with hu'
          subst hu'
          have hup := (h3 u' p).mpr hFp
          rw [hU] at hup
          cases hup
      | none =>
        rw [alookBy_pairsF_eq]
        have hpn : ¬p < st.ntotal := by
          intro hlt
          have hs := (h4 p).mp hlt
          rw [hFp] at hs
          cases hs
        rw [if_pos (by omega)]
        constructor
        · rintro ⟨_, hg⟩
          exact hg
        · intro hg
          exact ⟨by omega, hg⟩
  · intro p
    show p < st.ntotal + (newOf st c).length ↔
      (alookBy (st.f2u ++ pairsF st.ntotal (newOf st c)) p).isSome = true
    rw [alookBy_append]
    cases hFp : alookBy st.f2u p with
    | some u' =>
      have hpn : p < st.ntotal := hposF p (mem_keys_of_alookBy_some hFp)
      constructor
      · intro _
        rfl
      · intro _
        omega
    | none =>
      have hpn : ¬p < st.ntotal := by
        intro hlt
        have hs := (h4 p).mp hlt
        rw [hFp] at hs
        cases hs
      rw [alookBy_pairsF_eq, if_pos (by omega)]
      constructor
      · intro hlt
        have hidx : p - st.ntotal < (newOf st c).length := by omega
        rw [List.getElem?_eq_getElem hidx]
        rfl
      · intro hs
        by_contra hge
        have hidx : (newOf st c).length ≤ p - st.ntotal := by omega
        rw [List.getElem?_eq_none hidx] at hs
        cases hs
  · show (st.u2f ++ pairsU st.ntotal (newOf st c)).length =
      st.ntotal + (newOf st c).length
    rw [List.length_append, pairsU_length, h5]
  · show (st.f2u ++ pairsF st.ntotal (newOf st c)).length =
      st.ntotal + (newOf st c).length
    rw [List.length_append, pairsF_length, h6]

theorem identityMapInv_emptyEmb : IdentityMapInv emptyEmb := by
  refine ⟨by simp [emptyEmb], by simp [emptyEmb], ?_, ?_, rfl, rfl⟩
  · intro u p
    simp [emptyEmb, alookBy]
  · intro p
    simp [emptyEmb, alookBy]

theorem identityMapInv_foldl (B : Nat) (hB : 0 < B)
    (calls : List (List Email))
    (hnd : ∀ c ∈ calls, (c.map Email.uid).Nodup) :
    ∀ st, IdentityMapInv st →
      IdentityMapInv (calls.foldl (fun st c => (embedEmails B st c).1) st) := by
  induction calls with
  | nil =>
    intro st h
    simpa using h
  | cons c rest ih =>
    intro st h
    rw [List.foldl_cons]
    exact ih (fun c' hc' => hnd c' (List.mem_cons_of_mem c hc')) _
      (identityMapInv_embedEmails B hB st c h (hnd c (List.mem_cons_self c rest)))

theorem identityMapInv_runCalls (B : Nat) (hB : 0 < B)
    (calls : List (List Email))
    (hnd : ∀ c ∈ calls, (c.map Email.uid).Nodup) :
    IdentityMapInv (runCalls B calls) :=
  identityMapInv_foldl B hB calls hnd emptyEmb identityMapInv_emptyEmb

theorem embedEmails_assigns (B : Nat) (hB : 0 < B) (st : EmbState)
    (c : List Email) (hinv : IdentityMapInv st)
    (hnd : (c.map Email.uid).Nodup) :
    ∀ j (hj : j < (newOf st c).length),
      alookBy (embedEmails B st c).1.u2f ((newOf st c).get ⟨j, hj⟩).uid =
        some (st.ntotal + j) := by
  intro j hj
  have hc : c ≠ [] := by
    intro h
    subst h
    simp [newOf] at hj
  have hne : newOf st c ≠ [] := by
    intro h
    rw [h] at hj
    simp at hj
  rw [embedEmails_state_closed B hB st c (keys_lt_of_inv st hinv) hnd hc hne]
  show alookBy (st.u2f ++ pairsU st.ntotal (newOf st c)) _ = _
  rw [alookBy_append, newOf_fresh st c _ (List.get_mem _ _ hj)]
  show alookBy (pairsU st.ntotal (newOf st c)) _ = _
  refine (alookBy_pairsU_iff _ _ _ _ (newOf_uid_nodup st c hnd)).mpr
    ⟨Nat.le_add_right _ _, ?_⟩
  rw [Nat.add_sub_cancel_left, List.getElem?_eq_getElem hj]
  rfl

theorem runCalls_append (B : Nat) (l1 l2 : List (List Email)) :
    runCalls B (l1 ++ l2) =
      l2.foldl (fun st c => (embedEmails B st c).1) (runCalls B l1) := by
  rw [runCalls, runCalls, List.foldl_append]

theorem runCalls_snoc (B : Nat) (l1 : List (List Email)) (c : List Email) :
    runCalls B (l1 ++ [c]) = (embedEmails B (runCalls B l1) c).1 := by
  rw [runCalls_append]
  rfl

/-- Claim C1: after any sequence of `index()` calls with unique
external_ids, the Identity Map is a bijection between external_ids and
index positions: both dict directions have duplicate-free keys and are
mutually inverse, the positions carrying an entry are exactly `[0, N)`
for `N` the Vector Index size (no gaps, no reuse), both dicts have size
`N`; and within every call the newly indexed records receive consecutive
positions starting at the Vector Index's size at the time of insertion,
in input order. -/
theorem C1_identity_map_bijection (B : Nat) (hB : 0 < B)
    (calls : List (List Email))
    (hnd : ∀ c ∈ calls, (c.map Email.uid).Nodup) :
    IdentityMapInv (runCalls B calls) ∧
    (∀ pre c post, calls = pre ++ c :: post →
      ∀ j (hj : j < (newOf (runCalls B pre) c).length),
        alookBy (runCalls B (pre ++ [c])).u2f
            ((newOf (runCalls B pre) c).get ⟨j, hj⟩).uid =
          some ((runCalls B pre).ntotal + j)) := by
  constructor
  · exact identityMapInv_runCalls B hB calls hnd
  · intro pre c post hsplit j hj
    have hndpre : ∀ c' ∈ pre, (c'.map Email.uid).Nodup := by
      intro c' hc'
      exact hnd c' (by rw [hsplit]; exact List.mem_append_left _ hc')
    have hndc : (c.map Email.uid).Nodup := by
      refine hnd c ?_
      rw [hsplit]
      exact List.mem_append_right _ (List.mem_cons_self _ _)
    rw [runCalls_snoc]
    exact embedEmails_assigns B hB (runCalls B pre) c
      (identityMapInv_runCalls B hB pre hndpre) hndc j hj

/-- Witness for C1 at the spec's scenario (three records with external_ids
"1", "2", "3" and the configured batch size 64): the hypotheses hold and
the bijection invariant follows by applying the theorem. -/
theorem C1_identity_map_bijection_witness :
    0 < EMBEDDING_BATCH_SIZE ∧
    (∀ c ∈ demoCalls, (c.map Email.uid).Nodup) ∧
    IdentityMapInv (runCalls EMBEDDING_BATCH_SIZE demoCalls) :=
  ⟨by decide, by decide,
    (C1_identity_map_bijection EMBEDDING_BATCH_SIZE (by decide) demoCalls
      (by decide)).1⟩

/-- Claim C2: indexing is idempotent — running `embed_emails` a second time
on the same record sequence embeds zero additional records and leaves the
whole embedding state (in particular the Identity Map size and the Vector
Index size) unchanged. -/
theorem C2_indexing_idempotent (B : Nat) (hB : 0 < B) (st : EmbState)
    (R : List Email) :
    embedEmails B (embedEmails B st R).1 R = ((embedEmails B st R).1, 0) := by
  by_cases hc : R = []
  · subst hc
    rw [embedEmails_nil, embedEmails_nil]
  by_cases hne : newOf st R = []
  · rw [embedEmails_nonew B st R hne]
    exact embedEmails_nonew B st R hne
  rw [embedEmails_new B st R hc hne]
  apply embedEmails_nonew
  rw [newOf, List.filter_eq_nil_iff]
  intro e he
  have hkey : containsKeyBy
      ((chunksOf B (newOf st R)).foldl embedBatch st).u2f e.uid = true := by
    by_cases hk : containsKeyBy st.u2f e.uid = true
    · exact foldl_contains _ _ _ (Or.inl hk)
    · have hkf : containsKeyBy st.u2f e.uid = false :=
        Bool.not_eq_true _ ▸ eq_false_of_ne_true hk
      have hmem : e ∈ newOf st R := by
        rw [newOf, List.mem_filter]
        exact ⟨he, by rw [hkf]; rfl⟩
      have hfl : e ∈ (chunksOf B (newOf st R)).flatten := by
        rw [chunksOf_join B hB]
        exact hmem
      obtain ⟨b, hb, heb⟩ := List.mem_flatten.mp hfl
      exact foldl_contains _ _ _ (Or.inr ⟨b, hb, e, heb, rfl⟩)
  simp [hkey]

/-- Witness for C2 at a concrete two-record input with batch size 64. -/
theorem C2_indexing_idempotent_witness :
    0 < EMBEDDING_BATCH_SIZE ∧
    embedEmails EMBEDDING_BATCH_SIZE
        (embedEmails EMBEDDING_BATCH_SIZE emptyEmb [demoE1, demoE2]).1
        [demoE1, demoE2] =
      ((embedEmails EMBEDDING_BATCH_SIZE emptyEmb [demoE1, demoE2]).1, 0) :=
  ⟨by decide, C2_indexing_idempotent EMBEDDING_BATCH_SIZE (by decide) emptyEmb
    [demoE1, demoE2]⟩

theorem foldl_embedBatch_trace (bs : List (List Email)) (st : EmbState) :
    (bs.foldl embedBatch st).trace =
      st.trace ++ bs.map (fun b => b.map (fun e => e.body)) := by
  induction bs generalizing st with
  | nil => simp
  | cons b rest ih =>
    rw [List.foldl_cons, ih]
    simp [embedBatch, List.append_assoc]

/-- Counterexample to claim C3: loading a persisted state whose Vector
Index artifact exists (with one vector) while the mapping artifact is
absent succeeds silently: the Identity Map comes back empty (size 0 ≠
Vector Index size 1) and no ConsistencyError is raised, contradicting the
claim that a size mismatch on load surfaces a ConsistencyError. -/
theorem C3_counterexample :
    loadOrCreateIndex ⟨some 1, none⟩ = Except.ok ⟨1, [], [], []⟩ ∧
    (EmbState.mk 1 [] [] []).u2f.length ≠ (EmbState.mk 1 [] [] []).ntotal ∧
    (∀ msg : String, loadOrCreateIndex ⟨some 1, none⟩ ≠ Except.error msg) := by
  refine ⟨rfl, by decide, ?_⟩
  intro msg h
  exact Except.noConfusion h

/-- Amended claim C3: the load path performs no consistency check at all —
for every persisted state (including any Identity Map / Vector Index size
mismatch) loading succeeds and the system proceeds; no error is ever
surfaced to the caller. -/
theorem C3_load_never_raises (p : PersistedState) :
    ∃ st : EmbState, loadOrCreateIndex p = Except.ok st := by
  cases p with
  | mk idx mp =>
    cases idx with
    | none => exact ⟨_, rfl⟩
    | some n =>
      cases mp with
      | none => exact ⟨_, rfl⟩
      | some m => exact ⟨_, rfl⟩

/-- Counterexample to claim C4: for the record with subject "Invoice" and
body "pay now please", the only text passed to the embedding model is the
bare body.  The record's derived search text (`search_content`, the
subject+body concatenation computed at fetch time) contains the subject,
while the text actually embedded does not. -/
theorem C4_counterexample :
    (embedBatch emptyEmb [demoE4]).trace = [["pay now please"]] ∧
    cleanEmailForSearch demoE4.subject demoE4.body =
      "Invoice\npay now please" ∧
    strContains (cleanEmailForSearch demoE4.subject demoE4.body)
      demoE4.subject = true ∧
    strContains "pay now please" demoE4.subject = false :=
  ⟨by decide, by decide, by decide, by decide⟩

/-- Amended claim C4: for every `embed_emails` call, the texts passed to
the Embedding Oracle are exactly the bodies of the newly indexed records
— one oracle call per batch, each carrying that batch's record bodies in
input order; the derived subject+body search text is not what is
embedded. -/
theorem C4_oracle_receives_bodies (B : Nat) (st : EmbState)
    (c : List Email) :
    (embedEmails B st c).1.trace =
      st.trace ++
        (chunksOf B (newOf st c)).map (fun b => b.map (fun e => e.body)) := by
  by_cases hc : c = []
  · subst hc
    rw [embedEmails_nil]
    show st.trace = st.trace ++ _
    rw [show newOf st [] = [] from rfl]
    simp [chunksOf]
  by_cases hne : newOf st c = []
  · rw [embedEmails_nonew B st c hne, hne]
    simp [chunksOf]
  · rw [embedEmails_new B st c hc hne]
    exact foldl_embedBatch_trace _ _

/-- Claim C8: on a fetch cycle whose observed generation token differs
from the persisted one, the Metadata Store is wiped, the Identity Map and
Vector Index are recreated empty, and the new token is persisted; on the
first observation ever (no persisted token) the current token is persisted
and nothing is wiped; an unchanged token changes nothing. -/
theorem C8_generation_token_invalidation (current : Int) (st : SysState) :
    (st.persistedToken = none →
      fetchCycleWipe current st = ⟨some current, st.metaEmails, st.emb⟩) ∧
    (∀ last, st.persistedToken = some last → last ≠ current →
      fetchCycleWipe current st =
        ⟨some current, [], ⟨0, [], [], st.emb.trace⟩⟩) ∧
    (∀ last, st.persistedToken = some last → last = current →
      fetchCycleWipe current st = ⟨some last, st.metaEmails, st.emb⟩) := by
  refine ⟨?_, ?_, ?_⟩
  · intro h
    simp [fetchCycleWipe, checkUidValidity, h]
  · intro last h hne
    have hcl : ¬current = last := fun hx => hne hx.symm
    simp [fetchCycleWipe, checkUidValidity, h, hcl, clearIndex]
  · intro last h heq
    subst heq
    simp [fetchCycleWipe, checkUidValidity, h]

/-- Witness for C8: a first observation of token 5 persists it without
wiping; a change from persisted token 3 to observed token 5 wipes the
Metadata Store and recreates the embedding state empty; an unchanged
token leaves everything alone. -/
theorem C8_generation_token_invalidation_witness :
    fetchCycleWipe 5 ⟨none, [demoDb1], demoSt1⟩ =
      ⟨some 5, [demoDb1], demoSt1⟩ ∧
    fetchCycleWipe 5 ⟨some 3, [demoDb1], demoSt1⟩ =
      ⟨some 5, [], ⟨0, [], [], demoSt1.trace⟩⟩ ∧
    fetchCycleWipe 5 ⟨some 5, [demoDb1], demoSt1⟩ =
      ⟨some 5, [demoDb1], demoSt1⟩ :=
  ⟨(C8_generation_token_invalidation 5 _).1 rfl,
    (C8_generation_token_invalidation 5 _).2.1 3 rfl (by decide),
    (C8_generation_token_invalidation 5 _).2.2 5 rfl rfl⟩

theorem foldl_skip {α β : Type} (f : β → α → β) (x : α) (l1 l2 : List α)
    (b : β) (h : ∀ acc, f acc x = acc) :
    (l1 ++ x :: l2).foldl f b = (l1 ++ l2).foldl f b := by
  rw [List.foldl_append, List.foldl_append, List.foldl_cons, h]

theorem foldl_const {α β : Type} (f : β → α → β) (l : List α) (b : β)
    (h : ∀ acc, ∀ x ∈ l, f acc x = acc) : l.foldl f b = b := by
  induction l generalizing b with
  | nil => rfl
  | cons x t ih =>
    rw [List.foldl_cons, h b x (List.mem_cons_self _ _)]
    exact ih _ (fun acc y hy => h acc y (List.mem_cons_of_mem _ hy))

/-- Claim C7: a nearest-neighbour index position returned by the Vector
Index with no corresponding Identity Map entry is silently dropped from
the search results: both the uid-collection loop of
`search_emails_enhanced` and `search_similar_emails` produce exactly the
output they would produce were the neighbor absent, and neither raises
(both are total functions). -/
theorem C7_stale_neighbor_dropped (st : EmbState) (idx : Int)
    (pre post : List Int) (d : PyFloat) (preP postP : List (Int × PyFloat))
    (h1 : idx ≠ -1)
    (h2 : idx < 0 ∨ alookBy st.f2u idx.toNat = none) :
    collectUids st.f2u (pre ++ idx :: post) =
      collectUids st.f2u (pre ++ post) ∧
    searchSimilarEmails st (preP ++ (idx, d) :: postP) =
      searchSimilarEmails st (preP ++ postP) := by
  constructor
  · unfold collectUids
    apply foldl_skip
    intro acc
    show (if idx = -1 then acc
      else if idx < 0 then acc
      else match alookBy st.f2u idx.toNat with
        | some uid => if uid = "" then acc else acc ++ [uid]
        | none => acc) = acc
    rw [if_neg h1]
    rcases h2 with h2 | h2
    · rw [if_pos h2]
    · by_cases hlt : idx < 0
      · rw [if_pos hlt]
      · rw [if_neg hlt, h2]
  · unfold searchSimilarEmails
    by_cases h0 : st.ntotal = 0
    · rw [if_pos h0, if_pos h0]
    · rw [if_neg h0, if_neg h0]
      apply foldl_skip
      intro acc
      show (if idx = -1 then acc
        else if idx < 0 then acc
        else match alookBy st.f2u idx.toNat with
          | some uid =>
            if uid = "" then acc
            else acc ++
              [{ uid := uid, similarity := pfOneSub d, distance := d }]
          | none => acc) = acc
      rw [if_neg h1]
      rcases h2 with h2 | h2
      · rw [if_pos h2]
      · by_cases hlt : idx < 0
        · rw [if_pos hlt]
        · rw [if_neg hlt, h2]

/-- Witness for C7: neighbor position 5 has no Identity Map entry in the
one-record state and is dropped from both loops without error. -/
theorem C7_stale_neighbor_dropped_witness :
    (5 : Int) ≠ -1 ∧
    ((5 : Int) < 0 ∨ alookBy demoSt1.f2u (5 : Int).toNat = none) ∧
    collectUids demoSt1.f2u ([0] ++ 5 :: []) =
      collectUids demoSt1.f2u ([0] ++ []) ∧
    searchSimilarEmails demoSt1 ([(0, pfZero)] ++ (5, pfZero) :: []) =
      searchSimilarEmails demoSt1 ([(0, pfZero)] ++ []) :=
  ⟨by decide, by decide,
    (C7_stale_neighbor_dropped demoSt1 5 [0] [] pfZero [(0, pfZero)] []
      (by decide) (by decide)).1,
    (C7_stale_neighbor_dropped demoSt1 5 [0] [] pfZero [(0, pfZero)] []
      (by decide) (by decide)).2⟩

/-- Claim C9: searching when the Vector Index is empty returns an empty
sequence and does not invoke the Metadata Store — for every FAISS reply
obeying the index contract (each row entry is the padding id `-1` or a
valid position below `ntotal`), every database, every filter set and
every limit. -/
theorem C9_empty_index_search (st : EmbState) (ids : List Int)
    (dists : List PyFloat) (db : List DbEmail)
    (dateAfter dateBefore sender : Option String)
    (rx : Option (String → Bool)) (limit : Nat)
    (hempty : st.ntotal = 0)
    (hfaiss : ∀ i ∈ ids, i = -1 ∨ (0 ≤ i ∧ i.toNat < st.ntotal)) :
    searchEmailsEnhanced st ids dists db dateAfter dateBefore sender rx
      limit = some ⟨[], false⟩ := by
  have hall : ∀ i ∈ ids, i = -1 := by
    intro i hi
    rcases hfaiss i hi with h | ⟨_, h2⟩
    · exact h
    · rw [hempty] at h2
      omega
  have huids : collectUids st.f2u ids = [] := by
    unfold collectUids
    apply foldl_const
    intro acc x hx
    show (if x = -1 then acc
      else if x < 0 then acc
      else match alookBy st.f2u x.toNat with
        | some uid => if uid = "" then acc else acc ++ [uid]
        | none => acc) = acc
    rw [if_pos (hall x hx)]
  simp only [searchEmailsEnhanced, huids]
  rfl

/-- Witness for C9 at the spec scenario shape: an empty index, a FAISS
reply of five padding ids (`limit = 5`), and a nonempty database. -/
theorem C9_empty_index_search_witness :
    emptyEmb.ntotal = 0 ∧
    (∀ i ∈ ([-1, -1, -1, -1, -1] : List Int),
      i = -1 ∨ (0 ≤ i ∧ i.toNat < emptyEmb.ntotal)) ∧
    searchEmailsEnhanced emptyEmb [-1, -1, -1, -1, -1]
        [pfZero, pfZero, pfZero, pfZero, pfZero] [demoDb1] none none none
        none 5 = some ⟨[], false⟩ :=
  ⟨rfl, by decide,
    C9_empty_index_search emptyEmb _ _ _ _ _ _ _ _ rfl (by decide)⟩

/-! Lemmas about the descending insertion sort and the embedded float
order. -/

theorem mem_insDescB {α : Type} (ltB : α → α → Bool) (x a : α)
    (l : List α) : a ∈ insDescB ltB x l ↔ a = x ∨ a ∈ l := by
  induction l with
  | nil => simp [insDescB]
  | cons y ys ih =>
    unfold insDescB
    by_cases h : ltB y x
    · rw [if_pos h]
      simp [List.mem_cons]
    · rw [if_neg h]
      simp only [List.mem_cons, ih]
      tauto

theorem mem_sortDescB {α : Type} (ltB : α → α → Bool) (l : List α)
    (a : α) : a ∈ sortDescB ltB l ↔ a ∈ l := by
  have h : ∀ acc, a ∈ l.foldl (fun acc x => insDescB ltB x acc) acc ↔
      a ∈ l ∨ a ∈ acc := by
    induction l with
    | nil =>
      intro acc
      simp
    | cons x xs ih =>
      intro acc
      rw [List.foldl_cons, ih, mem_insDescB]
      simp only [List.mem_cons]
      tauto
  simpa using h []

theorem length_insDescB {α : Type} (ltB : α → α → Bool) (x : α)
    (l : List α) : (insDescB ltB x l).length = l.length + 1 := by
  induction l with
  | nil => rfl
  | cons y ys ih =>
    unfold insDescB
    by_cases h : ltB y x
    · rw [if_pos h]
      rfl
    · rw [if_neg h]
      simp [ih]

theorem length_sortDescB {α : Type} (ltB : α → α → Bool) (l : List α) :
    (sortDescB ltB l).length = l.length := by
  have h : ∀ acc : List α,
      (l.foldl (fun acc x => insDescB ltB x acc) acc).length =
        l.length + acc.length := by
    induction l with
    | nil =>
      intro acc
      simp [sortDescB]
    | cons x xs ih =>
      intro acc
      rw [List.foldl_cons, ih, length_insDescB]
      simp only [List.length_cons]
      omega
  simpa using h []

theorem pfLt_iff_val {a b : PyFloat} (ha : 0 < a.den) (hb : 0 < b.den) :
    pfLt a b = true ↔ pfVal a < pfVal b := by
  unfold pfLt pfVal
  rw [decide_eq_true_iff]
  rw [div_lt_div_iff₀ (by exact_mod_cast ha) (by exact_mod_cast hb)]
  constructor
  · intro h
    exact_mod_cast h
  · intro h
    exact_mod_cast h

theorem insDescB_sim_sorted (x : SearchResult) (acc : List SearchResult)
    (hx : 0 < x.similarity.den) (hacc : ∀ r ∈ acc, 0 < r.similarity.den)
    (hs : List.Pairwise
      (fun a b => pfLt a.similarity b.similarity = false) acc) :
    List.Pairwise (fun a b => pfLt a.similarity b.similarity = false)
      (insDescB simLtB x acc) := by
  induction acc with
  | nil => simp [insDescB]
  | cons y ys ih =>
    have hy : 0 < y.similarity.den := hacc y (List.mem_cons_self _ _)
    have hys : ∀ r ∈ ys, 0 < r.similarity.den :=
      fun r hr => hacc r (List.mem_cons_of_mem _ hr)
    rw [List.pairwise_cons] at hs
    unfold insDescB
    by_cases h : simLtB y x = true
    · rw [if_pos h]
      have hyx : pfVal y.similarity < pfVal x.similarity :=
        (pfLt_iff_val hy hx).mp h
      rw [List.pairwise_cons]
      constructor
      · intro z hz
        rcases List.mem_cons.mp hz with hz | hz
        · subst hz
          rw [Bool.eq_false_iff, Ne, pfLt_iff_val hx hy]
          exact not_lt.mpr (le_of_lt hyx)
        · have hz' : 0 < z.similarity.den := hys z hz
          have hzy := hs.1 z hz
          have hzly : pfVal z.similarity ≤ pfVal y.similarity := by
            have hzly' : ¬pfVal y.similarity < pfVal z.similarity := by
              rw [← pfLt_iff_val hy hz']
              simp [hzy]
            exact not_lt.mp hzly'
          rw [Bool.eq_false_iff, Ne, pfLt_iff_val hx hz']
          exact not_lt.mpr (le_of_lt (lt_of_le_of_lt hzly hyx))
      · exact List.pairwise_cons.mpr hs
    · rw [if_neg h]
      rw [List.pairwise_cons]
      constructor
      · intro z hz
        rcases (mem_insDescB _ _ _ _).mp hz with hz | hz
        · subst hz
          exact eq_false_of_ne_true h
        · exact hs.1 z hz
      · exact ih hys hs.2

theorem foldl_ins_sim_sorted (l : List SearchResult) :
    ∀ acc : List SearchResult, (∀ r ∈ l, 0 < r.similarity.den) →
      (∀ r ∈ acc, 0 < r.similarity.den) →
      List.Pairwise (fun a b => pfLt a.similarity b.similarity = false) acc →
      List.Pairwise (fun a b => pfLt a.similarity b.similarity = false)
        (l.foldl (fun acc x => insDescB simLtB x acc) acc) := by
  induction l with
  | nil =>
    intro acc _ _ hs
    simpa using hs
  | cons x xs ih =>
    intro acc hl hacc hs
    rw [List.foldl_cons]
    refine ih _ (fun r hr => hl r (List.mem_cons_of_mem _ hr)) ?_ ?_
    · intro r hr
      rcases (mem_insDescB _ _ _ _).mp hr with h | h
      · subst h
        exact hl r (List.mem_cons_self _ _)
      · exact hacc r h
    · exact insDescB_sim_sorted x acc (hl x (List.mem_cons_self _ _)) hacc hs

theorem sortDescB_sim_sorted (l : List SearchResult)
    (hden : ∀ r ∈ l, 0 < r.similarity.den) :
    List.Pairwise (fun a b => pfLt a.similarity b.similarity = false)
      (sortDescB simLtB l) :=
  foldl_ins_sim_sorted l [] hden (by intro r hr; cases hr) (by simp)

theorem keywordRelevance_den_pos (q sub b : String) :
    0 < (keywordRelevance q sub b).den := by
  unfold keywordRelevance
  by_cases h : (pySplit (strLower q)).isEmpty = true
  · simp [h, pfZero]
  · simp only [h, Bool.false_eq_true, if_false]
    have hne : pySplit (strLower q) ≠ [] := by
      intro hx
      rw [hx] at h
      simp at h
    simpa using List.length_pos.mpr hne

/-- Counterexample to claim C5: on a two-row database where row "a"
matches the query token in its subject (score 2) and the later-dated row
"b" matches only in its body (score 1), `keyword_fallback_search` with
`limit = 1` returns ["b"] — the SQL query truncates to the most recent
match before scoring — while the claim's semantics (filter everything,
score, sort by score, then truncate) returns the higher-scored ["a"]. -/
theorem C5_counterexample :
    (keywordFallbackSearch [demoDbA, demoDbB] "alpha" none none 1).map
        (fun r => r.uid) = ["b"] ∧
    (keywordSearchSpecified [demoDbA, demoDbB] "alpha" none none 1).map
        (fun r => r.uid) = ["a"] ∧
    keywordRelevance "alpha" demoDbA.subject demoDbA.body = ⟨2, 1⟩ ∧
    keywordRelevance "alpha" demoDbB.subject demoDbB.body = ⟨1, 1⟩ :=
  ⟨by decide, by decide, by decide, by decide⟩

/-- Amended claim C5: `keyword_fallback_search` returns at most `limit`
records; every returned record comes from a database row that matches
every whitespace-delimited lowercase query token case-insensitively in
subject or body (AND across tokens, OR between the two fields), passes
the SQL date lower bound and the pattern filter (applied to the full
body), and is scored +2 per token in the subject plus +1 per token in the
body, normalized by token count; the returned list is sorted descending
by that score.  The `limit` truncation, however, is applied by the SQL
query to the date-descending-ordered token-and-date matches before the
pattern filter and the scoring, so the result is the pattern-filtered
subset of the `limit` most recent matches rather than the top-`limit` by
score. -/
theorem C5_keyword_fallback (db : List DbEmail) (query : String)
    (dateAfter : Option String) (rx : Option (String → Bool))
    (limit : Nat) :
    (keywordFallbackSearch db query dateAfter rx limit).length ≤ limit ∧
    (∀ r ∈ keywordFallbackSearch db query dateAfter rx limit,
      ∃ e ∈ db, r = kwResult query e ∧
        kwRowMatch (pySplit (strLower query)) dateAfter e = true ∧
        (∀ p, rx = some p → p e.body = true)) ∧
    List.Pairwise (fun a b => pfLt a.similarity b.similarity = false)
      (keywordFallbackSearch db query dateAfter rx limit) := by
  have hres : keywordFallbackSearch db query dateAfter rx limit =
      sortDescB simLtB
        (((sortDescB dateLtB
            (db.filter
              (kwRowMatch (pySplit (strLower query)) dateAfter))).take
          limit).filterMap (kwFormat query rx)) := rfl
  have hfmt : ∀ (e : DbEmail) (r : SearchResult),
      kwFormat query rx e = some r →
      r = kwResult query e ∧ (∀ p, rx = some p → p e.body = true) := by
    intro e r hfe
    cases hrx : rx with
    | none =>
      simp only [hrx, kwFormat] at hfe
      injection hfe with hfe
      refine ⟨hfe.symm, ?_⟩
      intro p hp
      cases hp
    | some p =>
      simp only [hrx, kwFormat] at hfe
      by_cases hpe : p e.body = true
      · rw [if_pos hpe] at hfe
        injection hfe with hfe
        refine ⟨hfe.symm, ?_⟩
        intro p' hp'
        injection hp' with hp'
        rw [← hp']
        exact hpe
      · rw [if_neg hpe] at hfe
        cases hfe
  have hmem0 : ∀ r,
      r ∈ ((sortDescB dateLtB
          (db.filter
            (kwRowMatch (pySplit (strLower query)) dateAfter))).take
        limit).filterMap (kwFormat query rx) →
      ∃ e ∈ db, r = kwResult query e ∧
        kwRowMatch (pySplit (strLower query)) dateAfter e = true ∧
        (∀ p, rx = some p → p e.body = true) := by
    intro r hr
    obtain ⟨e, he, hfe⟩ := List.mem_filterMap.mp hr
    have h1 := List.take_subset _ _ he
    have h2 := (mem_sortDescB _ _ _).mp h1
    have h3 := List.mem_filter.mp h2
    obtain ⟨hre, hpat⟩ := hfmt e r hfe
    exact ⟨e, h3.1, hre, h3.2, hpat⟩
  refine ⟨?_, ?_, ?_⟩
  · rw [hres, length_sortDescB]
    calc (((sortDescB dateLtB
          (db.filter
            (kwRowMatch (pySplit (strLower query)) dateAfter))).take
        limit).filterMap (kwFormat query rx)).length
        ≤ ((sortDescB dateLtB
            (db.filter
              (kwRowMatch (pySplit (strLower query)) dateAfter))).take
          limit).length := List.length_filterMap_le _ _
      _ ≤ limit := List.length_take_le _ _
  · intro r hr
    rw [hres] at hr
    exact hmem0 r ((mem_sortDescB _ _ _).mp hr)
  · rw [hres]
    apply sortDescB_sim_sorted
    intro r hr
    obtain ⟨e, _, hre, _, _⟩ := hmem0 r hr
    rw [hre]
    exact keywordRelevance_den_pos _ _ _

/-- Witness for C5 (amended) at the two-row database: at most one result,
and the returned record is row "b" with its token/score properties. -/
theorem C5_keyword_fallback_witness :
    (keywordFallbackSearch [demoDbA, demoDbB] "alpha" none none 1).length
      ≤ 1 ∧
    (∀ r ∈ keywordFallbackSearch [demoDbA, demoDbB] "alpha" none none 1,
      ∃ e ∈ [demoDbA, demoDbB], r = kwResult "alpha" e ∧
        kwRowMatch (pySplit (strLower "alpha")) none e = true ∧
        (∀ p, (none : Option (String → Bool)) = some p → p e.body = true)) :=
  ⟨(C5_keyword_fallback [demoDbA, demoDbB] "alpha" none none 1).1,
    (C5_keyword_fallback [demoDbA, demoDbB] "alpha" none none 1).2.1⟩

set_option maxRecDepth 1000000 in
/-- Counterexample to claim C6: the candidate hydrated from a
201-character body whose only `z` is its last character is dropped by the
code's pattern filter — which matches the pattern against the
200-character body preview `body[:200] + '...'` — even though the pattern
matches the candidate's body, so the claim's body-matching filter keeps
it. -/
theorem C6_counterexample :
    (fetchMetadataForUids [demoDb6] ["u6"] [pfZero]).length = 1 ∧
    regexStage demoRxZ (fetchMetadataForUids [demoDb6] ["u6"] [pfZero]) =
      [] ∧
    regexStageOnBody demoRxZ
        (fetchMetadataForUids [demoDb6] ["u6"] [pfZero]) =
      fetchMetadataForUids [demoDb6] ["u6"] [pfZero] ∧
    (∀ r ∈ fetchMetadataForUids [demoDb6] ["u6"] [pfZero],
      demoRxZ r.fullBody = true) :=
  ⟨by decide, by decide, by decide, by decide⟩

/-- Amended claim C6: when a pattern filter is supplied it is matched
against each surviving candidate's 200-character body preview
(`body[:200] + '...'` when the body exceeds 200 characters, the full body
otherwise), not the full body; exactly the candidates whose preview
matches survive, conjunctively with the timestamp and sender filters; and
every hydrated candidate carries `bodyPreview = mkPreview fullBody`. -/
theorem C6_pattern_filter_on_preview (db : List DbEmail)
    (uids : List String) (dists : List PyFloat) (da dbf : PyDateTime)
    (sn : String) (rx : String → Bool) (rs : List SearchResult)
    (r : SearchResult) :
    (r ∈ regexStage rx (senderStage sn (dateBeforeStage dbf
        (dateAfterStage da rs))) ↔
      r ∈ rs ∧ dtLe da (parseDate r.date) = true ∧
        dtLe (parseDate r.date) dbf = true ∧
        strContains (strLower r.sender) (strLower sn) = true ∧
        rx r.bodyPreview = true) ∧
    (r ∈ fetchMetadataForUids db uids dists →
      r.bodyPreview = mkPreview r.fullBody) := by
  constructor
  · simp only [regexStage, senderStage, dateBeforeStage, dateAfterStage,
      List.mem_filter]
    tauto
  · intro hr
    obtain ⟨p, _, hfp⟩ := List.mem_filterMap.mp hr
    cases hfind : db.find? (fun e => e.uid == p.2) with
    | none =>
      simp only [hfind] at hfp
      cases hfp
    | some e =>
      simp only [hfind] at hfp
      injection hfp with hfp
      rw [← hfp]

/-- Witness for C6 (amended): a concrete candidate passes all four
filters via the iff, and a concretely hydrated candidate satisfies the
preview equation. -/
theorem C6_pattern_filter_on_preview_witness :
    demoRes1 ∈ regexStage demoRxX (senderStage "X@Y" (dateBeforeStage
      demoDtMax (dateAfterStage pyDatetimeMin [demoRes1]))) ∧
    demoRes1.bodyPreview = mkPreview demoRes1.fullBody :=
  ⟨((C6_pattern_filter_on_preview [demoDbA] ["a"] [pfZero] pyDatetimeMin
      demoDtMax "X@Y" demoRxX [demoRes1] demoRes1).1).mpr
      ⟨by decide, by decide, by decide, by decide, by decide⟩,
    (C6_pattern_filter_on_preview [demoDbA] ["a"] [pfZero] pyDatetimeMin
      demoDtMax "X@Y" demoRxX [demoRes1] demoRes1).2 (by decide)⟩

/-! The minimum datetime is a lower bound for every parsed date. -/

theorem dtKey_min_le (t : PyDateTime) (hy : 1 ≤ t.year) (hm : 1 ≤ t.month)
    (hd : 1 ≤ t.day) : dtKey pyDatetimeMin ≤ dtKey t := by
  unfold dtKey pyDatetimeMin
  simp only
  have h1 : 13 ≤ t.year * 13 := Nat.le_mul_of_pos_left 13 hy
  have h2 : 14 * 32 ≤ (t.year * 13 + t.month) * 32 :=
    Nat.mul_le_mul_right 32 (by omega)
  have h3 : 449 * 24 ≤ ((t.year * 13 + t.month) * 32 + t.day) * 24 :=
    Nat.mul_le_mul_right 24 (by omega)
  have h4 : 10776 * 60 ≤
      (((t.year * 13 + t.month) * 32 + t.day) * 24 + t.hour) * 60 :=
    Nat.mul_le_mul_right 60 (by omega)
  have h5 : 646560 * 60 ≤
      ((((t.year * 13 + t.month) * 32 + t.day) * 24 + t.hour) * 60
        + t.minute) * 60 :=
    Nat.mul_le_mul_right 60 (by omega)
  omega

theorem mkPyDate_min_le {y m d hh mi ss : Nat} {t : PyDateTime}
    (h : mkPyDate y m d hh mi ss = some t) :
    dtLe pyDatetimeMin t = true := by
  unfold mkPyDate at h
  split at h
  case isTrue hcond =>
    injection h with h
    subst h
    simp only [Bool.and_eq_true, decide_eq_true_eq] at hcond
    obtain ⟨⟨⟨⟨⟨⟨⟨⟨h1, h2⟩, h3⟩, h4⟩, h5⟩, h6⟩, h7⟩, h8⟩, h9⟩ := hcond
    unfold dtLe
    simp only [decide_eq_true_eq]
    exact dtKey_min_le _ h1 h3 h5
  case isFalse _ => cases h

theorem parseYMD_min_le {s : String} {t : PyDateTime}
    (h : parseYMD s = some t) : dtLe pyDatetimeMin t = true := by
  unfold parseYMD at h
  repeat' split at h
  all_goals first
    | exact mkPyDate_min_le h
    | cases h

theorem parseYMDStrict_min_le {cs : List Char} {t : PyDateTime}
    (h : parseYMDStrict cs = some t) : dtLe pyDatetimeMin t = true := by
  unfold parseYMDStrict at h
  repeat' split at h
  all_goals first
    | exact mkPyDate_min_le h
    | cases h

theorem parseFull_min_le {s : String} {t : PyDateTime}
    (h : parseFull s = some t) : dtLe pyDatetimeMin t = true := by
  unfold parseFull at h
  repeat' split at h
  all_goals first
    | exact mkPyDate_min_le h
    | cases h

theorem parseIso_min_le {s : String} {t : PyDateTime}
    (h : parseIso s = some t) : dtLe pyDatetimeMin t = true := by
  simp only [parseIso] at h
  cases hstrict : parseYMDStrict
      ((replaceAllL "Z".data "+00:00".data s.data).take 10) with
  | none =>
    rw [hstrict] at h
    cases h
  | some d =>
    rw [hstrict] at h
    cases hdrop : (replaceAllL "Z".data "+00:00".data s.data).drop 10 with
    | nil =>
      rw [hdrop] at h
      injection h with h
      subst h
      exact parseYMDStrict_min_le hstrict
    | cons c tpart =>
      rw [hdrop] at h
      cases htime : parseIsoTime (splitAtSign tpart).1 with
      | none =>
        simp only [htime] at h
        cases h
      | some tri =>
        obtain ⟨hh, mi, sec⟩ := tri
        simp only [htime] at h
        cases hoff : (splitAtSign tpart).2 with
        | none =>
          simp only [hoff] at h
          exact mkPyDate_min_le h
        | some off =>
          simp only [hoff] at h
          by_cases hv : validOffset off = true
          · rw [if_pos hv] at h
            exact mkPyDate_min_le h
          · rw [if_neg hv] at h
            cases h

theorem parseDate_min_le (s : String) :
    dtLe pyDatetimeMin (parseDate s) = true := by
  unfold parseDate
  cases h1 : parseIso s with
  | some t => exact parseIso_min_le h1
  | none =>
    cases h2 : parseFull s with
    | some t => exact parseFull_min_le h2
    | none =>
      cases h3 : parseYMD (String.mk (s.data.take 10)) with
      | some t => exact parseYMD_min_le h3
      | none => decide

theorem mem_applySender (sender : Option String) (rs : List SearchResult)
    (r : SearchResult) (h : r ∈ applySender sender rs) : r ∈ rs := by
  cases sender with
  | none => exact h
  | some sn => exact (List.mem_filter.mp h).1

theorem mem_applyRx (rx : Option (String → Bool)) (rs : List SearchResult)
    (r : SearchResult) (h : r ∈ applyRx rx rs) : r ∈ rs := by
  cases rx with
  | none => exact h
  | some p => exact (List.mem_filter.mp h).1

theorem mem_applyDateBefore (dateBefore : Option String)
    (rs1 rs2 : List SearchResult) (h : applyDateBefore dateBefore rs1 = some rs2)
    (r : SearchResult) (hr : r ∈ rs2) : r ∈ rs1 := by
  cases dateBefore with
  | none =>
    injection h with h
    rw [← h] at hr
    exact hr
  | some s =>
    simp only [applyDateBefore] at h
    cases hp : parseYMD s with
    | none =>
      rw [hp] at h
      cases h
    | some dt =>
      rw [hp] at h
      injection h with h
      rw [← h] at hr
      exact (List.mem_filter.mp hr).1

theorem searchEnhanced_results_dateAfter (st : EmbState) (ids : List Int)
    (dists : List PyFloat) (db : List DbEmail) (s : String)
    (dateBefore sender : Option String) (rx : Option (String → Bool))
    (limit : Nat) (d : PyDateTime) (outcome : SearchOutcome)
    (hp : parseYMD s = some d)
    (hout : searchEmailsEnhanced st ids dists db (some s) dateBefore sender
      rx limit = some outcome) :
    ∀ r ∈ outcome.results, dtLe d (parseDate r.date) = true := by
  intro r hr
  simp only [searchEmailsEnhanced] at hout
  by_cases hu : (collectUids st.f2u ids).isEmpty = true
  · rw [if_pos hu] at hout
    injection hout with hout
    rw [← hout] at hr
    cases hr
  · rw [if_neg hu] at hout
    cases h1 : applyDateAfter (some s)
        (fetchMetadataForUids db (collectUids st.f2u ids) dists) with
    | none =>
      simp only [h1] at hout
      cases hout
    | some rs1 =>
      simp only [h1] at hout
      cases h2 : applyDateBefore dateBefore rs1 with
      | none =>
        simp only [h2] at hout
        cases hout
      | some rs2 =>
        simp only [h2] at hout
        injection hout with hout
        rw [← hout] at hr
        have hr2 : r ∈ rs2 := by
          have ha := List.take_subset _ _ hr
          have hb := (mem_sortDescB _ _ _).mp ha
          exact mem_applySender _ _ _ (mem_applyRx _ _ _ hb)
        have hr1 : r ∈ rs1 := mem_applyDateBefore _ _ _ h2 r hr2
        have hrs1 : rs1 = dateAfterStage d
            (fetchMetadataForUids db (collectUids st.f2u ids) dists) := by
          simp only [applyDateAfter, hp, Option.map_some'] at h1
          injection h1 with h1
          exact h1.symm
        rw [hrs1] at hr1
        exact (List.mem_filter.mp hr1).2

/-- Counterexample to claim C10: the candidate whose stored date is the
empty string parses to `datetime.min`, and with the timestamp lower bound
`date_after = "0001-01-01"` (which parses to `datetime.min` as well) the
candidate is returned, not excluded — `min >= min` holds — so a record
with an absent/unparsable date is not excluded for every supplied lower
bound. -/
theorem C10_counterexample :
    parseDate demoDb1.date = pyDatetimeMin ∧
    parseYMD "0001-01-01" = some pyDatetimeMin ∧
    (searchEmailsEnhanced demoSt1 [0] [pfZero] [demoDb1]
        (some "0001-01-01") none none none 10).map
        (fun o => o.results.map (fun r => r.uid)) = some ["u1"] :=
  ⟨by decide, by decide, by decide⟩

/-- Amended claim C10: a candidate whose stored date is absent or
unparsable by every supported format is treated as `datetime.min` by
`_parse_date`: it is excluded from the results of
`search_emails_enhanced` whenever the supplied `date_after` parses to a
datetime strictly above `datetime.min`; the `date_before` filter never
removes it for any parsable bound; and a `date_after` equal to
`datetime.min` (the string "0001-01-01") excludes nothing. -/
theorem C10_unparsable_date_filtering (st : EmbState) (ids : List Int)
    (dists : List PyFloat) (db : List DbEmail) (s : String)
    (dateBefore sender : Option String) (rx : Option (String → Bool))
    (limit : Nat) (d : PyDateTime) (outcome : SearchOutcome)
    (r : SearchResult)
    (hp : parseYMD s = some d)
    (hmin : dtLe d pyDatetimeMin = false)
    (hr : parseDate r.date = pyDatetimeMin)
    (hout : searchEmailsEnhanced st ids dists db (some s) dateBefore sender
      rx limit = some outcome) :
    r ∉ outcome.results ∧
    (∀ s' bd rs, parseYMD s' = some bd →
      (r ∈ dateBeforeStage bd rs ↔ r ∈ rs)) ∧
    (∀ rs : List SearchResult,
      r ∈ dateAfterStage pyDatetimeMin rs ↔ r ∈ rs) := by
  refine ⟨?_, ?_, ?_⟩
  · intro hmem
    have hle := searchEnhanced_results_dateAfter st ids dists db s
      dateBefore sender rx limit d outcome hp hout r hmem
    rw [hr] at hle
    rw [hle] at hmin
    cases hmin
  · intro s' bd rs hbd
    have hminle := parseYMD_min_le hbd
    simp only [dateBeforeStage, List.mem_filter]
    constructor
    · exact fun h => h.1
    · intro h
      refine ⟨h, ?_⟩
      rw [hr]
      exact hminle
  · intro rs
    simp only [dateAfterStage, List.mem_filter]
    constructor
    · exact fun h => h.1
    · intro h
      exact ⟨h, parseDate_min_le _⟩

/-- Witness for C10 (amended): with lower bound "2020-01-01" the
empty-dated candidate is filtered out of the concrete search run. -/
theorem C10_unparsable_date_filtering_witness :
    parseYMD "2020-01-01" = some ⟨2020, 1, 1, 0, 0, 0⟩ ∧
    dtLe ⟨2020, 1, 1, 0, 0, 0⟩ pyDatetimeMin = false ∧
    parseDate demoRes0.date = pyDatetimeMin ∧
    searchEmailsEnhanced demoSt1 [0] [pfZero] [demoDb1]
      (some "2020-01-01") none none none 10 = some ⟨[], true⟩ ∧
    demoRes0 ∉ (SearchOutcome.mk [] true).results :=
  ⟨by decide, by decide, by decide, by decide,
    (C10_unparsable_date_filtering demoSt1 [0] [pfZero] [demoDb1]
      "2020-01-01" none none none 10 ⟨2020, 1, 1, 0, 0, 0⟩ ⟨[], true⟩
      demoRes0 (by decide) (by decide) (by decide) (by decide)).1⟩

end ImapEmail
